import Mathlib

/-!
Shallow embedding of `mwviews/api/pageviews.py` (a client for the Wikimedia
pageviews REST API) together with proofs about the claims of its
specification.  Python `datetime` values are modelled at hour precision
(the program only ever formats and parses `%Y%m%d%H`), Python dicts are
modelled as association lists with dict insertion-order semantics
(update-or-append), and every fallible code path returns `Except`.
-/

namespace Mwviews

/-- A Python `datetime` truncated to hour precision, as used throughout
`pageviews.py` (all dates are formatted and parsed with `%Y%m%d%H`). -/
structure DT where
  year : Nat
  month : Nat
  day : Nat
  hour : Nat
deriving DecidableEq

/-- Gregorian leap-year test, as implemented by Python `datetime`
validity checking. -/
def isLeap (y : Nat) : Prop :=
  (y % 4 = 0 ∧ ¬ y % 100 = 0) ∨ y % 400 = 0

instance (y : Nat) : Decidable (isLeap y) := by unfold isLeap; infer_instance

/-- Number of days in a month of a given year (Python `calendar` rules,
used by `datetime` validity checking and day arithmetic). -/
def daysInMonth (y m : Nat) : Nat :=
  if m = 2 then (if isLeap y then 29 else 28)
  else if m = 4 ∨ m = 6 ∨ m = 9 ∨ m = 11 then 30
  else 31

/-- Days in the given year. -/
def daysInYear (y : Nat) : Nat := if isLeap y then 366 else 365

/-- Days of year `y` that lie strictly before month `m` (months 1-12). -/
def daysBeforeMonth (y : Nat) : Nat → Nat
  | 0 => 0
  | 1 => 0
  | m + 2 => daysBeforeMonth y (m + 1) + daysInMonth y (m + 1)

/-- Days that lie strictly before year `y` counting from year 1
(the proleptic Gregorian day count used by Python `datetime`). -/
def daysBeforeYear (y : Nat) : Nat :=
  (y - 1) * 365 + (y - 1) / 4 - (y - 1) / 100 + (y - 1) / 400

/-- Absolute hour count of a timestamp, the measure that makes Python
`datetime` comparison and `timedelta` arithmetic explicit. -/
def toAbs (t : DT) : Nat :=
  (daysBeforeYear t.year + daysBeforeMonth t.year t.month + (t.day - 1)) * 24 + t.hour

/-- Validity of a timestamp, exactly the constraints Python `datetime`
enforces at construction (`MINYEAR = 1`, months 1-12, days within the
month, hours 0-23). -/
def validDT (t : DT) : Prop :=
  1 ≤ t.year ∧ 1 ≤ t.month ∧ t.month ≤ 12 ∧
    1 ≤ t.day ∧ t.day ≤ daysInMonth t.year t.month ∧ t.hour ≤ 23

instance (t : DT) : Decidable (validDT t) := by unfold validDT; infer_instance

/-- Python `datetime` comparison `a <= b`: lexicographic on
(year, month, day, hour). -/
def dtLe (a b : DT) : Bool :=
  decide (a.year < b.year ∨ (a.year = b.year ∧
    (a.month < b.month ∨ (a.month = b.month ∧
      (a.day < b.day ∨ (a.day = b.day ∧ a.hour ≤ b.hour))))))

/-- Python `datetime` strict comparison `a < b`. -/
def dtLt (a b : DT) : Bool := !(dtLe b a)

/-- Successor day: Python `datetime + timedelta(days=1)` restricted to the
day/month/year rollover logic (hour unchanged). -/
def nextDay (t : DT) : DT :=
  if t.day < daysInMonth t.year t.month then
    { t with day := t.day + 1 }
  else if t.month < 12 then
    { year := t.year, month := t.month + 1, day := 1, hour := t.hour }
  else
    { year := t.year + 1, month := 1, day := 1, hour := t.hour }

/-- Successor hour: Python `datetime + timedelta(hours=1)`. -/
def nextHour (t : DT) : DT :=
  if t.hour < 23 then { t with hour := t.hour + 1 }
  else nextDay { t with hour := 0 }

/-- Python `datetime + timedelta` for a whole number of hours; the program
only ever adds `timedelta(hours=1)` and `timedelta(days=1)`, so increments
are modelled as hour counts (1 and 24 respectively). -/
def addHours (t : DT) : Nat → DT
  | 0 => t
  | n + 1 => addHours (nextHour t) n

/-- Source `month_from_day`: `datetime(dt.year, dt.month, 1)`
(day 1, hour 0). -/
def month_from_day (t : DT) : DT :=
  { year := t.year, month := t.month, day := 1, hour := 0 }

/-- Numeric value of a decimal digit character. -/
def digitVal (c : Char) : Nat := c.toNat - '0'.toNat

/-- Source `parse_date`: right-pad the string with `'0'` to 10 characters
and parse it as `%Y%m%d%H`, failing (Python `ValueError`) when the result
is not a valid timestamp.  `strptime` is modelled on zero-padded
fixed-width forms: four year digits then two digits each for month, day
and hour, each field validated against the calendar. -/
def parse_date (s : String) : Option DT :=
  let padded := s.data ++ List.replicate (10 - s.data.length) '0'
  match padded with
  | [y1, y2, y3, y4, m1, m2, d1, d2, h1, h2] =>
    if (padded.all Char.isDigit) then
      let y := ((digitVal y1 * 10 + digitVal y2) * 10 + digitVal y3) * 10 + digitVal y4
      let m := digitVal m1 * 10 + digitVal m2
      let d := digitVal d1 * 10 + digitVal d2
      let h := digitVal h1 * 10 + digitVal h2
      let t : DT := ⟨y, m, d, h⟩
      if validDT t then some t else none
    else none
  | _ => none

/-- Left-pad the decimal rendering of `n` with zeros to width `w`. -/
def padNum (w n : Nat) : String :=
  let s := toString n
  String.mk (List.replicate (w - s.length) '0') ++ s

/-- Source `format_date`: `strftime` with `%Y%m%d%H`. -/
def format_date (t : DT) : String :=
  padNum 4 t.year ++ padNum 2 t.month ++ padNum 2 t.day ++ padNum 2 t.hour

/-- Loop of source `timestamps_between` with explicit fuel: yield `s`,
`s + increment`, ... while `s <= e`.  The zero-fuel branch is a
termination artifact only; `tbGo` supplies one unit of fuel per hour of
the range plus one, which is enough whenever the start timestamp is
valid and the increment positive, because each step then advances
`toAbs` by the increment while the loop condition bounds it by
`toAbs e`. -/
def tbLoop (e : DT) (inc : Nat) : Nat → DT → List DT
  | 0, s => if dtLe s e then [s] else []
  | fuel + 1, s => if dtLe s e then s :: tbLoop e inc fuel (addHours s inc) else []

/-- Loop body of source `timestamps_between`: yield `start`,
`start + increment`, ... while `start <= end`. -/
def tbGo (s e : DT) (inc : Nat) : List DT :=
  tbLoop e inc (toAbs e + 1 - toAbs s) s

/-- Input to source `timestamps_between`: a Python `date` (no hour
attribute) or `datetime` (hour present).  Lines 38-39 of the source
rebuild both endpoints as `datetime(year, month, day, getattr(_, 'hour', 0))`. -/
structure DTIn where
  year : Nat
  month : Nat
  day : Nat
  hour : Option Nat

/-- Truncation performed at the top of source `timestamps_between`:
the hour defaults to 0 when the input has no hour attribute. -/
def truncIn (t : DTIn) : DT :=
  { year := t.year, month := t.month, day := t.day, hour := t.hour.getD 0 }

/-- Source `timestamps_between(start, end, increment)` with the increment
as a whole number of hours. -/
def timestamps_between (s e : DTIn) (inc : Nat) : List DT :=
  tbGo (truncIn s) (truncIn e) inc

/-! ### Python dicts as association lists

The output tables are Python dicts; a dict is modelled as an association
list with unique keys, where writing an existing key updates it in place
and writing a new key appends it (insertion order). -/

/-- Inner dict of an output table: subject name to view count, where
`none` models Python `None` (no data, distinct from 0). -/
abbrev Row := List (String × Option Int)

/-- Outer output table: timestamp to row, as built by
`article_views` / `project_views`. -/
abbrev Table := List (DT × Row)

/-- Dict read on a row (`row[a]`): `none` models a missing key. -/
def rowGet (r : Row) (a : String) : Option (Option Int) :=
  match r.find? (fun p => p.1 = a) with
  | some p => some p.2
  | none => none

/-- Dict write on a row (`row[a] = v`): update in place or append. -/
def rowSet (r : Row) (a : String) (v : Option Int) : Row :=
  match r with
  | [] => [(a, v)]
  | p :: rest => if p.1 = a then (a, v) :: rest else p :: rowSet rest a v

/-- Dict read on a table (`table[d]` without defaulting). -/
def tblGet (t : Table) (d : DT) : Option Row :=
  match t.find? (fun p => p.1 = d) with
  | some p => some p.2
  | none => none

/-- Dict write on a table (`table[d] = r`): update in place or append. -/
def tblSet (t : Table) (d : DT) (r : Row) : Table :=
  match t with
  | [] => [(d, r)]
  | p :: rest => if p.1 = d then (d, r) :: rest else p :: tblSet rest d r

/-- The dict comprehension `{a : None for a in subjects}` (later
duplicates overwrite, keeping first position). -/
def preseedRow (subjects : List String) : Row :=
  subjects.foldl (fun r a => rowSet r a none) []

/-- The dict comprehension
`{day : {a : None for a in subjects} for day in days}` used to pre-seed
the output of `article_views` and `project_views`. -/
def preseed (days : List DT) (subjects : List String) : Table :=
  days.foldl (fun t d => tblSet t d (preseedRow subjects)) []

/-- Combined cell read `table[d][a]`: outer `none` when either key is
missing, `some v` when both keys exist with view count `v`. -/
def cell (t : Table) (d : DT) (a : String) : Option (Option Int) :=
  (tblGet t d).bind (fun r => rowGet r a)

instance {ε α : Type} [DecidableEq ε] [DecidableEq α] :
    DecidableEq (Except ε α) := fun a b =>
  match a, b with
  | .ok x, .ok y =>
    if h : x = y then .isTrue (by rw [h])
    else .isFalse (fun hh => h (Except.ok.inj hh))
  | .error x, .error y =>
    if h : x = y then .isTrue (by rw [h])
    else .isFalse (fun hh => h (Except.error.inj hh))
  | .ok _, .error _ => .isFalse (fun hh => Except.noConfusion hh)
  | .error _, .ok _ => .isFalse (fun hh => Except.noConfusion hh)

/-! ### Raw HTTP results and error classification -/

/-- One entry of the `items` list of a per-article or aggregate response:
`{"timestamp": ..., "article"|"project": ..., "views": ...}`. -/
structure Item where
  timestamp : String
  subject : String
  views : Int
deriving DecidableEq

/-- Parsed body of a per-article or aggregate response.  `bad` models a
body on which `result.json()` raises; `noItems` a JSON body without an
`items` key (skipped by the merge loop); `items` a body with one. -/
inductive Body
  | bad
  | noItems
  | items (l : List Item)
deriving DecidableEq

/-- The outcome of one HTTP GET (a `requests` response), generic in the
body shape so that the same classifier serves all three operations. -/
structure RawResult (β : Type) where
  status_code : Nat
  url : String
  body : β
deriving DecidableEq

/-- Exceptions the embedded code can raise.  `apiLimitExceeded` models
`ApiLimitExceeded` from `mwviews.api.exceptions` (imported by the source,
module not in the repository snapshot; used purely as an opaque error
value).  `noUsableData` models the anonymous `Exception` built by
`get_wikipedia_error`.  `jsonError`, `valueError`, `keyError` and
`typeError` model the built-in Python exceptions raised by `.json()`,
`parse_date`, a missing dict key, and `timedelta(months=1)` or
`raise None`.  `unboundLocal` models `UnboundLocalError` on the unset
`increment` variable.  `unsupportedGranularity` appears nowhere in the
code; it renders the `UnsupportedGranularityError` named by the
specification so that statements can compare against it. -/
inductive PvError
  | apiLimitExceeded
  | noUsableData (urls : List String)
  | jsonError
  | valueError
  | keyError
  | typeError
  | unboundLocal
  | unsupportedGranularity
deriving DecidableEq

/-- Source `get_wikipedia_error(results, return_error=False)`: return
`ApiLimitExceeded()` on the first result whose status is 429
(`requests.codes.too_many`); otherwise, when `return_error` is set,
return the "returned nothing useful" exception carrying every result
URL; otherwise return `None`. -/
def get_wikipedia_error {β : Type} (results : List (RawResult β))
    (return_error : Bool) : Option PvError :=
  match results.find? (fun r => r.status_code = 429) with
  | some _ => some .apiLimitExceeded
  | none =>
    if return_error then some (.noUsableData (results.map (fun r => r.url)))
    else none

/-- Python truthiness of a view-count cell: `None` and `0` are falsy. -/
def pytruthy (v : Option Int) : Bool :=
  match v with
  | some n => decide (n ≠ 0)
  | none => false

/-- Python `v or 0` on a view-count cell. -/
def pyOr0 (v : Option Int) : Int :=
  match v with
  | some n => if n ≠ 0 then n else 0
  | none => 0

/-! ### The merge loop shared by `article_views` and `project_views` -/

/-- One assignment `output[parse_date(item[timestamp])][item[subject]] =
item[views]` on a `defaultdict(dict, ...)`: a missing outer key creates a
fresh row. -/
def setCell (t : Table) (d : DT) (a : String) (v : Int) : Table :=
  match tblGet t d with
  | some row => tblSet t d (rowSet row a (some v))
  | none => tblSet t d [(a, some v)]

/-- Inner merge loop `for item in result[items]`; `parse_date` failure
raises `ValueError`. -/
def mergeItems (t : Table) (items : List Item) : Except PvError Table :=
  items.foldlM
    (fun acc it =>
      match parse_date it.timestamp with
      | some d => pure (setCell acc d it.subject it.views)
      | none => throw .valueError)
    t

/-- One iteration of the outer merge loop: `result.json()` failure
raises, a body without `items` is skipped, a body with `items` sets the
`some_data_returned` flag and merges each item. -/
def mergeStep (acc : Table × Bool) (r : RawResult Body) :
    Except PvError (Table × Bool) :=
  match r.body with
  | .bad => throw .jsonError
  | .noItems => pure acc
  | .items l => do
    let t2 ← mergeItems acc.1 l
    pure (t2, true)

/-- Outer merge loop over the batch, starting from the pre-seeded table
with the `some_data_returned` flag down. -/
def mergeResults (t : Table) (results : List (RawResult Body)) :
    Except PvError (Table × Bool) :=
  results.foldlM mergeStep (t, false)

/-! ### `article_views` -/

/-- Python `a.replace(' ', '_')` applied to an article title. -/
def spaceToUnderscore (s : String) : String :=
  String.mk (s.data.map (fun c => if c = ' ' then '_' else c))

/-- One monthly roll-up step for a single (article, views) pair of a
daily row: `if views: om[month][article] = (om[month][article] or 0) +
views`.  A subject key missing from the month row raises `KeyError`; a
missing month row cannot occur (the caller seeds it first) but is mapped
to `KeyError` as well for totality. -/
def rollupArticle (m : DT) (om : Table) (a : String) (v : Option Int) :
    Except PvError Table :=
  if pytruthy v then
    match tblGet om m with
    | none => throw .keyError
    | some mrow =>
      match rowGet mrow a with
      | none => throw .keyError
      | some cur => pure (tblSet om m (rowSet mrow a (some (pyOr0 cur + v.getD 0))))
  else pure om

/-- One iteration of the monthly roll-up loop over a (day, row) entry of
the merged daily table: seed the month row with
`{a : None for a in articles}` on first sight of the month, then fold the
daily row through `rollupArticle`. -/
def rollStep (articles : List String) (om : Table) (p : DT × Row) :
    Except PvError Table :=
  let m := month_from_day p.1
  let om2 := if (tblGet om m).isSome then om else tblSet om m (preseedRow articles)
  p.2.foldlM (fun acc q => rollupArticle m acc q.1 q.2) om2

/-- Source lines 152-163: client-side monthly aggregation of the merged
daily table. -/
def monthlyRollup (articles : List String) (t : Table) : Except PvError Table :=
  t.foldlM (rollStep articles) []

/-- Source `PageviewsClient.article_views` after date-parameter
resolution, with the fetched batch passed in place of the network call
(`get_concurrent` returns one result per article URL): underscore the
titles, pre-seed one row per day of the range, merge the batch, run the
error classifier, then optionally roll up monthly. -/
def article_views_core (articles : List String) (startDate endDate : DT)
    (granularity : String) (results : List (RawResult Body)) :
    Except PvError Table := do
  let articles := articles.map spaceToUnderscore
  let output := preseed (tbGo startDate endDate 24) articles
  let merged ← mergeResults output results
  match get_wikipedia_error results (!merged.2) with
  | some e => throw e
  | none =>
    if granularity = "monthly" then monthlyRollup articles merged.1
    else pure merged.1

/-! ### `project_views` -/

/-- Source lines 231-236: increment selection.  `timedelta(months=1)`
raises `TypeError` (Python `timedelta` accepts no `months` keyword), and
any other granularity leaves `increment` unassigned, so its use at line
238 raises `UnboundLocalError`. -/
def selectIncrement (granularity : String) : Except PvError Nat :=
  if granularity = "hourly" then pure 1
  else if granularity = "daily" then pure 24
  else if granularity = "monthly" then throw .typeError
  else throw .unboundLocal

/-- Source `PageviewsClient.project_views` after date-parameter
resolution, with the fetched batch passed in place of the network call:
select the increment, pre-seed one row per timestamp of the range, merge
the batch, run the error classifier. -/
def project_views_core (projects : List String) (startDate endDate : DT)
    (granularity : String) (results : List (RawResult Body)) :
    Except PvError Table := do
  let inc ← selectIncrement granularity
  let output := preseed (tbGo startDate endDate inc) projects
  let merged ← mergeResults output results
  match get_wikipedia_error results (!merged.2) with
  | some e => throw e
  | none => pure merged.1

/-! ### `top_articles` -/

/-- One entry of the `articles` list of a top response. -/
structure TopEntry where
  rank : Int
  article : String
  views : Int
deriving DecidableEq

/-- Parsed body of a top response: `items` holds, for each entry of the
JSON `items` list, that entry's `articles` list. -/
inductive TopBody
  | bad
  | noItems
  | items (l : List (List TopEntry))
deriving DecidableEq

/-- Python `r.sort(key=lambda x: x['rank'])` (a stable sort by rank). -/
def sortByRank (l : List TopEntry) : List TopEntry :=
  l.mergeSort (fun a b => decide (a.rank ≤ b.rank))

/-- Source `PageviewsClient.top_articles` after URL construction, with
the single fetched result passed in place of the network call: on a JSON
body with exactly one `items` entry return that entry's articles sorted
by rank and truncated to `limit`; otherwise fall through to
`raise get_wikipedia_error([result])`, which raises `ApiLimitExceeded`
on a 429 status and otherwise executes `raise None`, a `TypeError`. -/
def top_articles_core (result : RawResult TopBody) (limit : Nat) :
    Except PvError (List TopEntry) :=
  match result.body with
  | .bad => throw .jsonError
  | .noItems =>
    match get_wikipedia_error [result] false with
    | some e => throw e
    | none => throw .typeError
  | .items l =>
    match l with
    | [arts] => pure ((sortByRank arts).take limit)
    | _ =>
      match get_wikipedia_error [result] false with
      | some e => throw e
      | none => throw .typeError

/-! ### `get_concurrent` -/

/-- Completion-order model of `ThreadPoolExecutor.map`: one result slot
per input URL; the worker finishing request `i` writes `fetch(urls[i])`
into slot `i`; `order` is the sequence in which requests complete. -/
def fillSlots {ρ : Type} (fetch : String → ρ) (urls : List String)
    (order : List Nat) : List (Option ρ) :=
  order.foldl (fun slots i => slots.set i (some (fetch (urls.getD i ""))))
    (List.replicate urls.length none)

/-- Source `PageviewsClient.get_concurrent`: collect the slots in input
order once all requests have completed. -/
def get_concurrent {ρ : Type} (fetch : String → ρ) (urls : List String)
    (order : List Nat) : List (Option ρ) :=
  fillSlots fetch urls order

/-- Whether some item of `items` addresses the cell (`d`, `a`) (the
pair its timestamp parses to and its subject field name). -/
def mentionsItems (items : List Item) (d : DT) (a : String) : Prop :=
  ∃ it ∈ items, parse_date it.timestamp = some d ∧ it.subject = a

/-- Whether some item of some result body of the batch addresses the
cell (`d`, `a`). -/
def mentions (results : List (RawResult Body)) (d : DT) (a : String) : Prop :=
  ∃ r ∈ results, ∃ l, r.body = Body.items l ∧ mentionsItems l d a

/-- Body well-formedness for one raw result: `.json()` succeeds and, when
an `items` list is present, every item timestamp parses. -/
def wellFormed (r : RawResult Body) : Prop :=
  r.body ≠ Body.bad ∧ ∀ l, r.body = Body.items l →
    ∀ it ∈ l, (parse_date it.timestamp).isSome

/-- Row-completeness of a roll-up accumulator: every month row already
present contains a key for every requested article.  Holds for the empty
initial accumulator and is preserved by the roll-up loop, whose rows are
seeded from `preseedRow articles`. -/
def rowComplete (articles : List String) (om : Table) : Prop :=
  ∀ m2 a2, (rowGet (preseedRow articles) a2).isSome →
    tblGet om m2 = none ∨ (cell om m2 a2).isSome

/-- Key uniqueness of a table and of each of its rows, the Python dict
invariant that the association-list model maintains. -/
def tblNodup (t : Table) : Prop :=
  (t.map Prod.fst).Nodup ∧ ∀ p ∈ t, (p.2.map Prod.fst).Nodup

/-! ### Helper lemmas: the slot array of `get_concurrent` -/

theorem fillSlots_fold_getElem {ρ : Type} (val : Nat → ρ) (order : List Nat)
    (init : List (Option ρ)) (j : Nat) :
    (order.foldl (fun slots i => slots.set i (some (val i))) init)[j]? =
      if j ∈ order ∧ j < init.length then some (some (val j)) else init[j]? := by
  induction order generalizing init with
  | nil => simp
  | cons o rest ih =>
    simp only [List.foldl_cons]
    rw [ih]
    by_cases hr : j ∈ rest
    · by_cases hl : j < init.length
      · simp [hr, hl, List.length_set]
      · have h1 : init[j]? = none := List.getElem?_eq_none (le_of_not_lt hl)
        have h2 : (init.set o (some (val o)))[j]? = none :=
          List.getElem?_eq_none (by simpa using le_of_not_lt hl)
        simp [hr, hl, List.length_set, h1, h2]
    · by_cases ho : j = o
      · subst ho
        by_cases hl : j < init.length
        · simp [hr, hl, List.length_set, List.getElem?_set_self hl, List.mem_cons]
        · have h1 : init[j]? = none := List.getElem?_eq_none (le_of_not_lt hl)
          have h2 : (init.set j (some (val j)))[j]? = none :=
            List.getElem?_eq_none (by simpa using le_of_not_lt hl)
          simp [hr, hl, List.length_set, h1, h2]
      · have := List.getElem?_set_ne (l := init) (a := some (val o)) (Ne.symm ho)
        simp [hr, ho, List.length_set, this, List.mem_cons]

theorem fillSlots_fold_length {ρ : Type} (val : Nat → ρ) (order : List Nat)
    (init : List (Option ρ)) :
    (order.foldl (fun slots i => slots.set i (some (val i))) init).length =
      init.length := by
  induction order generalizing init with
  | nil => rfl
  | cons o rest ih => simp [ih, List.length_set]

/-! ### Claim theorems -/

/-- C9: for every list of input URLs, the concurrent fetch stage returns
exactly one result per URL, in the same order as the input URL list,
regardless of the order in which the parallel workers complete their
requests: as long as every request index completes, the collected slots
equal the input URLs mapped through the fetch function. -/
theorem c9_concurrent_fetch_preserves_input_order {ρ : Type}
    (fetch : String → ρ) (urls : List String) (order : List Nat)
    (hcov : ∀ i, i < urls.length → i ∈ order) :
    get_concurrent fetch urls order = urls.map (fun u => some (fetch u)) := by
  apply List.ext_getElem?
  intro j
  unfold get_concurrent fillSlots
  rw [fillSlots_fold_getElem (fun i => fetch (urls.getD i ""))]
  by_cases hj : j < urls.length
  · have hmem : j ∈ order := hcov j hj
    have : urls.getD j "" = urls[j] := List.getD_eq_getElem urls "" hj
    simp [hmem, hj, List.getElem?_map, List.getElem?_eq_getElem hj, this]
  · have h1 : urls[j]? = none := List.getElem?_eq_none (le_of_not_lt hj)
    have h2 : (List.replicate urls.length (none : Option ρ))[j]? = none :=
      List.getElem?_eq_none (by simpa using le_of_not_lt hj)
    simp [hj, List.getElem?_map, h1, h2]

/-- Closed witness for C9: three URLs fetched with completion order
reversed still collect in input order. -/
theorem c9_concurrent_fetch_preserves_input_order_witness :
    (∀ i, i < (["a", "b", "c"] : List String).length → i ∈ [2, 0, 1]) ∧
      get_concurrent (fun u => u ++ "!") ["a", "b", "c"] [2, 0, 1] =
        (["a", "b", "c"] : List String).map (fun u => some (u ++ "!")) :=
  ⟨by decide,
    c9_concurrent_fetch_preserves_input_order (fun u => u ++ "!")
      ["a", "b", "c"] [2, 0, 1] (by decide)⟩

/-- C2: the source documents monthly project granularity, but
`timedelta(months=1)` raises `TypeError` (Python `timedelta` has no
`months` argument), so every `project_views` call with granularity
`monthly` fails during increment selection instead of returning a
month-bucketed table. -/
theorem c2_project_views_monthly_raises_type_error
    (projects : List String) (startDate endDate : DT)
    (results : List (RawResult Body)) :
    project_views_core projects startDate endDate "monthly" results =
      Except.error PvError.typeError := rfl

/-- Counterexample for C5: a granularity outside hourly/daily/monthly
makes `project_views` fail with `UnboundLocalError` (the `increment`
variable is never assigned), not with the specification's
`UnsupportedGranularityError`. -/
theorem c5_counterexample :
    project_views_core ["en.wikipedia"] ⟨2023, 1, 1, 0⟩ ⟨2023, 1, 1, 0⟩
        "weekly" [] = Except.error PvError.unboundLocal ∧
      PvError.unboundLocal ≠ PvError.unsupportedGranularity :=
  ⟨rfl, by decide⟩

/-- C5 (amended): for every granularity other than hourly, daily and
monthly, `project_views` fails — with `UnboundLocalError` on the unset
`increment` variable rather than a dedicated granularity error. -/
theorem c5_unknown_granularity_unbound_local (g : String)
    (h1 : g ≠ "hourly") (h2 : g ≠ "daily") (h3 : g ≠ "monthly")
    (projects : List String) (startDate endDate : DT)
    (results : List (RawResult Body)) :
    project_views_core projects startDate endDate g results =
      Except.error PvError.unboundLocal := by
  simp only [project_views_core, selectIncrement, if_neg h1, if_neg h2, if_neg h3]
  rfl

/-- Closed witness for the amended C5 at granularity `weekly`. -/
theorem c5_unknown_granularity_unbound_local_witness :
    ("weekly" ≠ "hourly" ∧ "weekly" ≠ "daily" ∧ "weekly" ≠ "monthly") ∧
      project_views_core [] ⟨2023, 1, 1, 0⟩ ⟨2023, 1, 1, 0⟩ "weekly" [] =
        Except.error PvError.unboundLocal :=
  ⟨by decide,
    c5_unknown_granularity_unbound_local "weekly" (by decide) (by decide)
      (by decide) [] ⟨2023, 1, 1, 0⟩ ⟨2023, 1, 1, 0⟩ []⟩

/-- C6: when the response parses as JSON but carries zero or more than
one `items` entries (or no `items` key) and the status is not 429, the
batch error classifier produces no error, and `top_articles` executes
`raise None`, which is a `TypeError` — not the classifier's error the
claim describes.  Each conjunct evaluates the code at one failing
input. -/
theorem c6_top_articles_raise_none_is_type_error :
    top_articles_core ⟨200, "u", TopBody.noItems⟩ 1000 =
        Except.error PvError.typeError ∧
      top_articles_core ⟨200, "u", TopBody.items []⟩ 1000 =
        Except.error PvError.typeError ∧
      top_articles_core ⟨200, "u", TopBody.items [[], []]⟩ 1000 =
        Except.error PvError.typeError ∧
      get_wikipedia_error [(⟨200, "u", TopBody.noItems⟩ : RawResult TopBody)]
          false = none ∧
      top_articles_core ⟨429, "u", TopBody.noItems⟩ 1000 =
        Except.error PvError.apiLimitExceeded :=
  ⟨rfl, rfl, rfl, rfl, rfl⟩

/-- C7: on a response with exactly one `items` entry, `top_articles`
returns that entry's articles sorted ascending by rank and truncated to
the first `limit` entries, truncation applied after sorting; with fewer
than `limit` entries, all of them come back in rank order. -/
theorem c7_top_articles_sorted_then_truncated (r : RawResult TopBody)
    (arts : List TopEntry) (limit : Nat) (h : r.body = TopBody.items [arts]) :
    ∃ full, top_articles_core r limit = Except.ok (full.take limit) ∧
      full.Perm arts ∧
      List.Sorted (fun a b : TopEntry => a.rank ≤ b.rank) full ∧
      (arts.length ≤ limit → top_articles_core r limit = Except.ok full) := by
  refine ⟨sortByRank arts, ?_, ?_, ?_, ?_⟩
  · simp only [top_articles_core, h]
    rfl
  · exact List.mergeSort_perm arts _
  · have hp := @List.sorted_mergeSort TopEntry
      (fun a b : TopEntry => decide (a.rank ≤ b.rank))
      (fun a b c hab hbc => by
        simp only [decide_eq_true_eq] at hab hbc ⊢; exact le_trans hab hbc)
      (fun a b => by
        simp only [Bool.or_eq_true, decide_eq_true_eq]; exact le_total a.rank b.rank)
      arts
    exact hp.imp (fun hab => by simpa using hab)
  · intro hlen
    have hh : (sortByRank arts).length = arts.length :=
      (List.mergeSort_perm arts _).length_eq
    simp only [top_articles_core, h, List.take_of_length_le (hh ▸ hlen)]
    rfl

/-- Closed witness for C7: five ranked articles with `limit = 2` return
exactly the two lowest ranks, in rank order. -/
theorem c7_top_articles_sorted_then_truncated_witness :
    (RawResult.mk 200 "u" (TopBody.items
        [[⟨3, "c", 1⟩, ⟨1, "a", 9⟩, ⟨2, "b", 4⟩, ⟨5, "e", 0⟩, ⟨4, "d", 2⟩]])).body =
      TopBody.items [[⟨3, "c", 1⟩, ⟨1, "a", 9⟩, ⟨2, "b", 4⟩, ⟨5, "e", 0⟩, ⟨4, "d", 2⟩]] ∧
      ∃ full,
        top_articles_core
            ⟨200, "u", TopBody.items
              [[⟨3, "c", 1⟩, ⟨1, "a", 9⟩, ⟨2, "b", 4⟩, ⟨5, "e", 0⟩, ⟨4, "d", 2⟩]]⟩ 2 =
          Except.ok (full.take 2) ∧
        full.Perm [⟨3, "c", 1⟩, ⟨1, "a", 9⟩, ⟨2, "b", 4⟩, ⟨5, "e", 0⟩, ⟨4, "d", 2⟩] ∧
        List.Sorted (fun a b : TopEntry => a.rank ≤ b.rank) full ∧
        (([⟨3, "c", 1⟩, ⟨1, "a", 9⟩, ⟨2, "b", 4⟩, ⟨5, "e", 0⟩,
            (⟨4, "d", 2⟩ : TopEntry)] : List TopEntry).length ≤ 2 →
          top_articles_core
              ⟨200, "u", TopBody.items
                [[⟨3, "c", 1⟩, ⟨1, "a", 9⟩, ⟨2, "b", 4⟩, ⟨5, "e", 0⟩, ⟨4, "d", 2⟩]]⟩ 2 =
            Except.ok full) :=
  ⟨rfl, c7_top_articles_sorted_then_truncated _ _ 2 rfl⟩

/-- Counterexample for C1: a batch whose only result has status 429 but a
body on which `.json()` raises makes `article_views` raise the JSON
decoding error from the merge loop, not `ApiLimitExceeded`. -/
theorem c1_counterexample :
    article_views_core ["X"] ⟨2023, 1, 1, 0⟩ ⟨2023, 1, 1, 0⟩ "daily"
        [⟨429, "u", Body.bad⟩] = Except.error PvError.jsonError ∧
      PvError.jsonError ≠ PvError.apiLimitExceeded :=
  ⟨rfl, by decide⟩

/-- Counterexample for C3: over the single-day range 2023-01-01, a
response reporting 0 views for article `Cat` yields a daily table with
the explicit count 0 but a monthly table in which the count has
collapsed to absent (`if views:` treats 0 as no data). -/
theorem c3_counterexample :
    article_views_core ["Cat"] ⟨2023, 1, 1, 0⟩ ⟨2023, 1, 1, 0⟩ "daily"
        [⟨200, "u", Body.items [⟨"2023010100", "Cat", 0⟩]⟩] =
      Except.ok [(⟨2023, 1, 1, 0⟩, [("Cat", some 0)])] ∧
    article_views_core ["Cat"] ⟨2023, 1, 1, 0⟩ ⟨2023, 1, 1, 0⟩ "monthly"
        [⟨200, "u", Body.items [⟨"2023010100", "Cat", 0⟩]⟩] =
      Except.ok [(⟨2023, 1, 1, 0⟩, [("Cat", none)])] ∧
    (some (0 : Int) ≠ (none : Option Int)) :=
  ⟨rfl, rfl, by decide⟩

/-! ### Helper lemmas: calendar arithmetic -/

theorem daysInMonth_pos (y m : Nat) : 1 ≤ daysInMonth y m := by
  unfold daysInMonth
  split_ifs <;> omega

theorem daysBeforeMonth_succ (y m : Nat) (h : 1 ≤ m) :
    daysBeforeMonth y (m + 1) = daysBeforeMonth y m + daysInMonth y m := by
  cases m with
  | zero => omega
  | succ k => rfl

theorem daysBeforeMonth_step_le (y m : Nat) :
    daysBeforeMonth y m ≤ daysBeforeMonth y (m + 1) := by
  cases m with
  | zero => simp [daysBeforeMonth]
  | succ k =>
    rw [daysBeforeMonth_succ y (k + 1) (by omega)]
    omega

theorem daysBeforeMonth_mono (y : Nat) {m m2 : Nat} (h : m ≤ m2) :
    daysBeforeMonth y m ≤ daysBeforeMonth y m2 := by
  induction m2 with
  | zero => simp_all
  | succ k ih =>
    rcases Nat.lt_or_ge m (k + 1) with hlt | hge
    · exact le_trans (ih (by omega)) (daysBeforeMonth_step_le y k)
    · have : m = k + 1 := by omega
      subst this; rfl

theorem daysBeforeMonth_13 (y : Nat) : daysBeforeMonth y 13 = daysInYear y := by
  have e3 := daysBeforeMonth_succ y 2 (by omega)
  have e4 := daysBeforeMonth_succ y 3 (by omega)
  have e5 := daysBeforeMonth_succ y 4 (by omega)
  have e6 := daysBeforeMonth_succ y 5 (by omega)
  have e7 := daysBeforeMonth_succ y 6 (by omega)
  have e8 := daysBeforeMonth_succ y 7 (by omega)
  have e9 := daysBeforeMonth_succ y 8 (by omega)
  have e10 := daysBeforeMonth_succ y 9 (by omega)
  have e11 := daysBeforeMonth_succ y 10 (by omega)
  have e12 := daysBeforeMonth_succ y 11 (by omega)
  have e13 := daysBeforeMonth_succ y 12 (by omega)
  have e2 : daysBeforeMonth y 2 = 31 := by
    have := daysBeforeMonth_succ y 1 (by omega)
    simpa [daysBeforeMonth, daysInMonth] using this
  have dim2 : daysInMonth y 2 = if isLeap y then 29 else 28 := by
    simp [daysInMonth]
  have dimo : ∀ m, m = 3 ∨ m = 5 ∨ m = 7 ∨ m = 8 ∨ m = 10 ∨ m = 12 →
      daysInMonth y m = 31 := by
    intro m hm
    rcases hm with h | h | h | h | h | h <;> subst h <;> simp [daysInMonth]
  have dime : ∀ m, m = 4 ∨ m = 6 ∨ m = 9 ∨ m = 11 → daysInMonth y m = 30 := by
    intro m hm
    rcases hm with h | h | h | h <;> subst h <;> simp [daysInMonth]
  have d3 := dimo 3 (by omega)
  have d5 := dimo 5 (by omega)
  have d7 := dimo 7 (by omega)
  have d8 := dimo 8 (by omega)
  have d10 := dimo 10 (by omega)
  have d12 := dimo 12 (by omega)
  have d4 := dime 4 (by omega)
  have d6 := dime 6 (by omega)
  have d9 := dime 9 (by omega)
  have d11 := dime 11 (by omega)
  unfold daysInYear
  by_cases h : isLeap y <;> simp only [h, if_true, if_false, reduceIte] <;>
    simp [dim2, h] at * <;> omega

set_option maxHeartbeats 1000000 in
theorem daysBeforeYear_succ (y : Nat) (h : 1 ≤ y) :
    daysBeforeYear (y + 1) = daysBeforeYear y + daysInYear y := by
  obtain ⟨z, rfl⟩ : ∃ z, y = z + 1 := ⟨y - 1, by omega⟩
  simp only [daysBeforeYear, daysInYear, Nat.add_sub_cancel]
  split_ifs with hleap <;>
    · unfold isLeap at hleap
      omega

theorem daysBeforeYear_mono {y y2 : Nat} (h : y ≤ y2) :
    daysBeforeYear y ≤ daysBeforeYear y2 := by
  induction y2 with
  | zero => simp_all
  | succ k ih =>
    rcases Nat.lt_or_ge y (k + 1) with hlt | hge
    · have hk : daysBeforeYear k ≤ daysBeforeYear (k + 1) := by
        cases k with
        | zero => simp [daysBeforeYear]
        | succ j =>
          rw [daysBeforeYear_succ (j + 1) (by omega)]
          omega
      exact le_trans (ih (by omega)) hk
    · have : y = k + 1 := by omega
      subst this; rfl

theorem offsetInYear_lt (t : DT) (hv : validDT t) :
    daysBeforeMonth t.year t.month + (t.day - 1) < daysInYear t.year := by
  obtain ⟨hy, hm1, hm12, hd1, hdm, hh⟩ := hv
  have h1 : daysBeforeMonth t.year t.month + daysInMonth t.year t.month =
      daysBeforeMonth t.year (t.month + 1) :=
    (daysBeforeMonth_succ t.year t.month hm1).symm
  have h2 : daysBeforeMonth t.year (t.month + 1) ≤ daysBeforeMonth t.year 13 :=
    daysBeforeMonth_mono t.year (by omega)
  have h3 := daysBeforeMonth_13 t.year
  omega

theorem toAbs_nextDay (t : DT) (hv : validDT t) :
    toAbs (nextDay t) = toAbs t + 24 ∧ validDT (nextDay t) := by
  obtain ⟨hy, hm1, hm12, hd1, hdm, hh⟩ := hv
  unfold nextDay
  split_ifs with h1 h2
  · exact ⟨by simp only [toAbs]; omega, hy, hm1, hm12,
      Nat.succ_le_succ (Nat.zero_le t.day), h1, hh⟩
  · have hstep := daysBeforeMonth_succ t.year t.month hm1
    refine ⟨?_, hy, Nat.succ_le_succ (Nat.zero_le t.month), h2,
      Nat.le_refl 1, daysInMonth_pos t.year (t.month + 1), hh⟩
    simp only [toAbs]
    omega
  · have hm : t.month = 12 := by omega
    have h31 : daysInMonth t.year 12 = 31 := by simp [daysInMonth]
    have hstep : daysBeforeMonth t.year 13 =
        daysBeforeMonth t.year 12 + daysInMonth t.year 12 :=
      daysBeforeMonth_succ t.year 12 (by omega)
    have h13 := daysBeforeMonth_13 t.year
    have hys := daysBeforeYear_succ t.year hy
    refine ⟨?_, Nat.le_succ_of_le hy, Nat.le_refl 1, (by omega : (1 : Nat) ≤ 12),
      Nat.le_refl 1, daysInMonth_pos (t.year + 1) 1, hh⟩
    simp only [toAbs]
    have hb1 : daysBeforeMonth (t.year + 1) 1 = 0 := rfl
    rw [hm] at h1 hdm ⊢
    omega

theorem toAbs_nextHour (t : DT) (hv : validDT t) :
    toAbs (nextHour t) = toAbs t + 1 ∧ validDT (nextHour t) := by
  obtain ⟨hy, hm1, hm12, hd1, hdm, hh⟩ := hv
  unfold nextHour
  split_ifs with h1
  · exact ⟨by simp only [toAbs]; omega, hy, hm1, hm12, hd1, hdm, h1⟩
  · have h23 : t.hour = 23 := by omega
    have hv0 : validDT { t with hour := 0 } := ⟨hy, hm1, hm12, hd1, hdm, Nat.zero_le 23⟩
    obtain ⟨habs, hval⟩ := toAbs_nextDay { t with hour := 0 } hv0
    refine ⟨?_, hval⟩
    rw [habs]
    simp only [toAbs]
    omega

theorem toAbs_addHours (t : DT) (n : Nat) (hv : validDT t) :
    toAbs (addHours t n) = toAbs t + n ∧ validDT (addHours t n) := by
  induction n generalizing t with
  | zero => exact ⟨rfl, hv⟩
  | succ k ih =>
    obtain ⟨habs, hval⟩ := toAbs_nextHour t hv
    obtain ⟨ih1, ih2⟩ := ih (nextHour t) hval
    exact ⟨by simp only [addHours]; omega, by simpa [addHours] using ih2⟩

theorem toAbs_le_of_dtLe {a b : DT} (ha : validDT a) (hb : validDT b)
    (h : dtLe a b = true) : toAbs a ≤ toAbs b := by
  have hvA := offsetInYear_lt a ha
  obtain ⟨hay, ham1, ham12, had1, hadm, hah⟩ := ha
  obtain ⟨hby, hbm1, hbm12, hbd1, hbdm, hbh⟩ := hb
  unfold dtLe at h
  rw [decide_eq_true_eq] at h
  rcases h with hy | ⟨hy, hm | ⟨hm, hd | ⟨hd, hh⟩⟩⟩
  · have h2 := daysBeforeYear_succ a.year hay
    have h3 : daysBeforeYear (a.year + 1) ≤ daysBeforeYear b.year :=
      daysBeforeYear_mono (by omega)
    simp only [toAbs]
    omega
  · have h1 : a.day - 1 < daysInMonth a.year a.month := by omega
    have h2 := daysBeforeMonth_succ a.year a.month ham1
    have h3 : daysBeforeMonth a.year (a.month + 1) ≤ daysBeforeMonth a.year b.month :=
      daysBeforeMonth_mono a.year (by omega)
    simp only [toAbs]
    rw [hy]
    rw [hy] at h1 h2 h3
    omega
  · simp only [toAbs]
    rw [hy, hm]
    omega
  · simp only [toAbs]
    rw [hy, hm, hd]
    omega

theorem toAbs_lt_of_dtLt {a b : DT} (ha : validDT a) (hb : validDT b)
    (h : dtLt a b = true) : toAbs a < toAbs b := by
  have hvA := offsetInYear_lt a ha
  obtain ⟨hay, ham1, ham12, had1, hadm, hah⟩ := ha
  obtain ⟨hby, hbm1, hbm12, hbd1, hbdm, hbh⟩ := hb
  unfold dtLt dtLe at h
  rw [Bool.not_eq_true', decide_eq_false_iff_not] at h
  push_neg at h
  have h2 : a.year < b.year ∨ (a.year = b.year ∧ (a.month < b.month ∨
      (a.month = b.month ∧ (a.day < b.day ∨ (a.day = b.day ∧ a.hour < b.hour))))) := by
    obtain ⟨h1, hrest⟩ := h
    omega
  rcases h2 with hy | ⟨hy, hm | ⟨hm, hd | ⟨hd, hh⟩⟩⟩
  · have hsucc := daysBeforeYear_succ a.year hay
    have hmono : daysBeforeYear (a.year + 1) ≤ daysBeforeYear b.year :=
      daysBeforeYear_mono (by omega)
    simp only [toAbs]
    omega
  · have h1 : a.day - 1 < daysInMonth a.year a.month := by omega
    have hstep := daysBeforeMonth_succ a.year a.month ham1
    have hmono : daysBeforeMonth a.year (a.month + 1) ≤ daysBeforeMonth a.year b.month :=
      daysBeforeMonth_mono a.year (by omega)
    simp only [toAbs]
    rw [hy]
    rw [hy] at h1 hstep hmono
    omega
  · simp only [toAbs]
    rw [hy, hm]
    omega
  · simp only [toAbs]
    rw [hy, hm, hd]
    omega

theorem dtLt_of_toAbs_lt {a b : DT} (ha : validDT a) (hb : validDT b)
    (h : toAbs a < toAbs b) : dtLt a b = true := by
  unfold dtLt
  cases hle : dtLe b a with
  | false => rfl
  | true => exact absurd (toAbs_le_of_dtLe hb ha hle) (by omega)

theorem dtLe_eq_false_of_toAbs_lt {a b : DT} (ha : validDT a) (hb : validDT b)
    (h : toAbs b < toAbs a) : dtLe a b = false := by
  cases hle : dtLe a b with
  | false => rfl
  | true => exact absurd (toAbs_le_of_dtLe ha hb hle) (by omega)

theorem dtLe_refl (a : DT) : dtLe a a = true := by
  unfold dtLe
  simp

theorem tbLoop_spec (e : DT) (inc : Nat) (hinc : 0 < inc) (he : validDT e) :
    ∀ fuel s, validDT s → dtLe s e = true → toAbs e ≤ toAbs s + fuel →
      (tbLoop e inc fuel s).head? = some s ∧
      List.Chain' (fun a b => dtLt a b = true) (tbLoop e inc fuel s) ∧
      (∀ x ∈ tbLoop e inc fuel s, dtLe x e = true) ∧
      (∃ last, (tbLoop e inc fuel s).getLast? = some last ∧
        dtLe (addHours last inc) e = false) ∧
      (tbLoop e inc fuel s).length = (toAbs e - toAbs s) / inc + 1 := by
  intro fuel
  induction fuel with
  | zero =>
    intro s hs hse hf
    have h1 : toAbs s ≤ toAbs e := toAbs_le_of_dtLe hs he hse
    obtain ⟨ha, hv2⟩ := toAbs_addHours s inc hs
    simp only [tbLoop, if_pos hse]
    refine ⟨rfl, by simp, ?_, ⟨s, rfl, ?_⟩, ?_⟩
    · intro x hx
      simp only [List.mem_singleton] at hx
      subst hx
      exact hse
    · exact dtLe_eq_false_of_toAbs_lt hv2 he (by omega)
    · have heq : toAbs e - toAbs s = 0 := by omega
      simp [heq]
  | succ fuel ih =>
    intro s hs hse hf
    obtain ⟨ha, hv2⟩ := toAbs_addHours s inc hs
    simp only [tbLoop, if_pos hse]
    by_cases hnext : dtLe (addHours s inc) e = true
    · have h2 : toAbs e ≤ toAbs (addHours s inc) + fuel := by omega
      obtain ⟨ih1, ih2, ih3, ⟨last, ihl, ihl2⟩, ih5⟩ :=
        ih (addHours s inc) hv2 hnext h2
      obtain ⟨tl, hL⟩ : ∃ tl,
          tbLoop e inc fuel (addHours s inc) = addHours s inc :: tl := by
        cases hcase : tbLoop e inc fuel (addHours s inc) with
        | nil => rw [hcase] at ih1; simp at ih1
        | cons hd tl =>
          rw [hcase] at ih1
          simp only [List.head?_cons, Option.some.injEq] at ih1
          subst ih1
          exact ⟨tl, rfl⟩
      refine ⟨rfl, ?_, ?_, ?_, ?_⟩
      · rw [hL, List.chain'_cons]
        exact ⟨dtLt_of_toAbs_lt hs hv2 (by omega), hL ▸ ih2⟩
      · intro x hx
        rcases List.mem_cons.mp hx with hx | hx
        · subst hx; exact hse
        · exact ih3 x hx
      · refine ⟨last, ?_, ihl2⟩
        rw [hL] at ihl ⊢
        rw [List.getLast?_cons_cons]
        exact ihl
      · have hsle : toAbs (addHours s inc) ≤ toAbs e :=
          toAbs_le_of_dtLe hv2 he hnext
        have hdiv : (toAbs e - toAbs s) / inc =
            (toAbs e - toAbs s - inc) / inc + 1 :=
          Nat.div_eq_sub_div hinc (by omega)
        have hsub : toAbs e - toAbs s - inc = toAbs e - toAbs (addHours s inc) := by
          omega
        simp only [List.length_cons, ih5]
        rw [hdiv, hsub]
    · have hL2 : tbLoop e inc fuel (addHours s inc) = [] := by
        cases fuel <;> simp only [tbLoop, if_neg hnext]
      rw [hL2]
      have hgt : toAbs e < toAbs (addHours s inc) := by
        have hlt : dtLt e (addHours s inc) = true := by
          unfold dtLt
          rw [Bool.eq_false_iff.mpr hnext]
          rfl
        exact toAbs_lt_of_dtLt he hv2 hlt
      refine ⟨rfl, by simp, ?_, ⟨s, rfl, Bool.eq_false_iff.mpr hnext⟩, ?_⟩
      · intro x hx
        simp only [List.mem_singleton] at hx
        subst hx
        exact hse
      · have h1 : toAbs s ≤ toAbs e := toAbs_le_of_dtLe hs he hse
        have hdiv : (toAbs e - toAbs s) / inc = 0 := Nat.div_eq_of_lt (by omega)
        simp [hdiv]

/-- C8: for start and end timestamps with start at or before end, and any
positive increment (in whole hours: the range and increment granularity
of this client), `timestamps_between` yields a sequence that begins with
the truncated start (the hour attribute defaulting to 0), is strictly
increasing, stays at or below the end with the next step exceeding the
end, and has length `floor((end - start) / increment) + 1`. -/
theorem c8_timestamps_between_spec (s e : DTIn) (inc : Nat)
    (hs : validDT (truncIn s)) (he : validDT (truncIn e))
    (hse : dtLe (truncIn s) (truncIn e) = true) (hinc : 0 < inc) :
    (timestamps_between s e inc).head? = some (truncIn s) ∧
      List.Chain' (fun a b => dtLt a b = true) (timestamps_between s e inc) ∧
      (∀ x ∈ timestamps_between s e inc, dtLe x (truncIn e) = true) ∧
      (∃ last, (timestamps_between s e inc).getLast? = some last ∧
        dtLe (addHours last inc) (truncIn e) = false) ∧
      (timestamps_between s e inc).length =
        (toAbs (truncIn e) - toAbs (truncIn s)) / inc + 1 := by
  have h1 : toAbs (truncIn s) ≤ toAbs (truncIn e) := toAbs_le_of_dtLe hs he hse
  unfold timestamps_between tbGo
  exact tbLoop_spec (truncIn e) inc hinc he _ (truncIn s) hs hse (by omega)

/-- Closed witness for C8: the three-day range 2023-01-01 to 2023-01-03
(start given date-like, with no hour attribute) at a one-day increment. -/
theorem c8_timestamps_between_spec_witness :
    (validDT (truncIn ⟨2023, 1, 1, none⟩) ∧ validDT (truncIn ⟨2023, 1, 3, some 0⟩) ∧
      dtLe (truncIn ⟨2023, 1, 1, none⟩) (truncIn ⟨2023, 1, 3, some 0⟩) = true ∧
      0 < 24) ∧
      ((timestamps_between ⟨2023, 1, 1, none⟩ ⟨2023, 1, 3, some 0⟩ 24).head? =
          some (truncIn ⟨2023, 1, 1, none⟩) ∧
        List.Chain' (fun a b => dtLt a b = true)
          (timestamps_between ⟨2023, 1, 1, none⟩ ⟨2023, 1, 3, some 0⟩ 24) ∧
        (∀ x ∈ timestamps_between ⟨2023, 1, 1, none⟩ ⟨2023, 1, 3, some 0⟩ 24,
          dtLe x (truncIn ⟨2023, 1, 3, some 0⟩) = true) ∧
        (∃ last, (timestamps_between ⟨2023, 1, 1, none⟩ ⟨2023, 1, 3, some 0⟩
            24).getLast? = some last ∧
          dtLe (addHours last 24) (truncIn ⟨2023, 1, 3, some 0⟩) = false) ∧
        (timestamps_between ⟨2023, 1, 1, none⟩ ⟨2023, 1, 3, some 0⟩ 24).length =
          (toAbs (truncIn ⟨2023, 1, 3, some 0⟩) -
            toAbs (truncIn ⟨2023, 1, 1, none⟩)) / 24 + 1) :=
  ⟨⟨by decide, by decide, by decide, by decide⟩,
    c8_timestamps_between_spec ⟨2023, 1, 1, none⟩ ⟨2023, 1, 3, some 0⟩ 24
      (by decide) (by decide) (by decide) (by decide)⟩

/-! ### Helper lemmas: dict operations -/

theorem rowGet_rowSet_self (r : Row) (a : String) (v : Option Int) :
    rowGet (rowSet r a v) a = some v := by
  induction r with
  | nil => simp [rowSet, rowGet]
  | cons p rest ih =>
    by_cases h : p.1 = a
    · simp [rowSet, h, rowGet]
    · simp only [rowSet, if_neg h]
      simpa [rowGet, List.find?_cons, h] using ih

theorem rowGet_rowSet_ne (r : Row) (a b : String) (v : Option Int)
    (h : b ≠ a) : rowGet (rowSet r a v) b = rowGet r b := by
  induction r with
  | nil => simp [rowSet, rowGet, Ne.symm h]
  | cons p rest ih =>
    by_cases hp : p.1 = a
    · simp [rowSet, hp, rowGet, List.find?_cons, Ne.symm h, hp ▸ (Ne.symm h)]
    · simp only [rowSet, if_neg hp]
      by_cases hb : p.1 = b
      · simp [rowGet, List.find?_cons, hb]
      · simpa [rowGet, List.find?_cons, hb] using ih

theorem tblGet_tblSet_self (t : Table) (d : DT) (r : Row) :
    tblGet (tblSet t d r) d = some r := by
  induction t with
  | nil => simp [tblSet, tblGet]
  | cons p rest ih =>
    by_cases h : p.1 = d
    · simp [tblSet, h, tblGet]
    · simp only [tblSet, if_neg h]
      simpa [tblGet, List.find?_cons, h] using ih

theorem tblGet_tblSet_ne (t : Table) (d d2 : DT) (r : Row)
    (h : d2 ≠ d) : tblGet (tblSet t d r) d2 = tblGet t d2 := by
  induction t with
  | nil => simp [tblSet, tblGet, Ne.symm h]
  | cons p rest ih =>
    by_cases hp : p.1 = d
    · simp [tblSet, hp, tblGet, List.find?_cons, Ne.symm h, hp ▸ (Ne.symm h)]
    · simp only [tblSet, if_neg hp]
      by_cases hb : p.1 = d2
      · simp [tblGet, List.find?_cons, hb]
      · simpa [tblGet, List.find?_cons, hb] using ih

theorem tblGet_seed_fold (days : List DT) (R : Row) (init : Table) (d : DT) :
    tblGet (days.foldl (fun t d2 => tblSet t d2 R) init) d =
      if d ∈ days then some R else tblGet init d := by
  induction days generalizing init with
  | nil => simp
  | cons hd rest ih =>
    simp only [List.foldl_cons]
    rw [ih]
    by_cases hmem : d ∈ rest
    · simp [hmem]
    · by_cases hd2 : d = hd
      · subst hd2
        simp [hmem, tblGet_tblSet_self]
      · simp [hmem, hd2, tblGet_tblSet_ne init hd d R hd2]

theorem rowGet_seed_fold (subs : List String) (init : Row) (a : String) :
    rowGet (subs.foldl (fun r a2 => rowSet r a2 none) init) a =
      if a ∈ subs then some none else rowGet init a := by
  induction subs generalizing init with
  | nil => simp
  | cons hd rest ih =>
    simp only [List.foldl_cons]
    rw [ih]
    by_cases hmem : a ∈ rest
    · simp [hmem]
    · by_cases ha : a = hd
      · subst ha
        simp [hmem, rowGet_rowSet_self]
      · simp [hmem, ha, rowGet_rowSet_ne init hd a none ha]

theorem tblGet_preseed (days : List DT) (subs : List String) (d : DT) :
    tblGet (preseed days subs) d =
      if d ∈ days then some (preseedRow subs) else none := by
  unfold preseed
  rw [tblGet_seed_fold]
  simp [tblGet]

theorem rowGet_preseedRow (subs : List String) (a : String) :
    rowGet (preseedRow subs) a = if a ∈ subs then some none else none := by
  unfold preseedRow
  rw [rowGet_seed_fold]
  simp [rowGet]

theorem cell_preseed (days : List DT) (subs : List String) (d : DT) (a : String) :
    cell (preseed days subs) d a =
      if d ∈ days ∧ a ∈ subs then some none else none := by
  unfold cell
  rw [tblGet_preseed]
  by_cases hd : d ∈ days
  · simp [hd, rowGet_preseedRow]
  · simp [hd]

/-! ### Helper lemmas: the merge loop -/

theorem cell_setCell_self (t : Table) (d : DT) (a : String) (v : Int) :
    cell (setCell t d a v) d a = some (some v) := by
  unfold setCell
  cases hrow : tblGet t d with
  | some row => simp [cell, tblGet_tblSet_self, rowGet_rowSet_self]
  | none => simp [cell, tblGet_tblSet_self, rowGet, List.find?_cons]

theorem cell_setCell_ne (t : Table) (d : DT) (a : String) (v : Int)
    (d2 : DT) (a2 : String) (h : d2 ≠ d ∨ a2 ≠ a) :
    cell (setCell t d a v) d2 a2 = cell t d2 a2 := by
  unfold setCell
  by_cases hd : d2 = d
  · subst hd
    have ha : a2 ≠ a := h.resolve_left (by simp)
    cases hrow : tblGet t d2 with
    | some row =>
      simp [cell, tblGet_tblSet_self, rowGet_rowSet_ne row a a2 (some v) ha, hrow]
    | none =>
      simp [cell, hrow, tblGet_tblSet_self, rowGet, List.find?_cons, ha, Ne.symm ha]
  · cases hrow : tblGet t d with
    | some row => simp [cell, tblGet_tblSet_ne t d d2 _ hd]
    | none => simp [cell, tblGet_tblSet_ne t d d2 _ hd]

theorem cell_setCell_isSome (t : Table) (d : DT) (a : String) (v : Int)
    (d2 : DT) (a2 : String) (h : (cell t d2 a2).isSome) :
    (cell (setCell t d a v) d2 a2).isSome := by
  by_cases hq : d2 = d ∧ a2 = a
  · obtain ⟨h1, h2⟩ := hq
    subst h1; subst h2
    simp [cell_setCell_self]
  · rw [cell_setCell_ne t d a v d2 a2 (by tauto)]
    exact h

theorem mergeItems_cell_unmentioned (items : List Item) (t t2 : Table)
    (hok : mergeItems t items = Except.ok t2) (d : DT) (a : String)
    (hun : ¬ mentionsItems items d a) : cell t2 d a = cell t d a := by
  induction items generalizing t with
  | nil => simp only [mergeItems, List.foldlM_nil] at hok; cases hok; rfl
  | cons it rest ih =>
    simp only [mergeItems, List.foldlM_cons] at hok
    cases hp : parse_date it.timestamp with
    | none => rw [hp] at hok; cases hok
    | some d2 =>
      rw [hp] at hok
      simp only [pure_bind] at hok
      have hrest : ¬ mentionsItems rest d a := by
        intro ⟨x, hx, hxx⟩
        exact hun ⟨x, List.mem_cons_of_mem it hx, hxx⟩
      have hne : d ≠ d2 ∨ a ≠ it.subject := by
        by_contra hc
        push_neg at hc
        exact hun ⟨it, List.mem_cons_self it rest, by rw [hp, hc.1, hc.2]; exact ⟨rfl, rfl⟩⟩
      rw [ih (setCell t d2 it.subject it.views) hok hrest]
      exact cell_setCell_ne t d2 it.subject it.views d a hne

theorem mergeItems_cell_isSome (items : List Item) (t t2 : Table)
    (hok : mergeItems t items = Except.ok t2) (d : DT) (a : String)
    (h : (cell t d a).isSome) : (cell t2 d a).isSome := by
  induction items generalizing t with
  | nil => simp only [mergeItems, List.foldlM_nil] at hok; cases hok; exact h
  | cons it rest ih =>
    simp only [mergeItems, List.foldlM_cons] at hok
    cases hp : parse_date it.timestamp with
    | none => rw [hp] at hok; cases hok
    | some d2 =>
      rw [hp] at hok
      simp only [pure_bind] at hok
      exact ih (setCell t d2 it.subject it.views) hok
        (cell_setCell_isSome t d2 it.subject it.views d a h)

theorem mergeItems_ok_of_parses (items : List Item) (t : Table)
    (hp : ∀ it ∈ items, (parse_date it.timestamp).isSome) :
    ∃ t2, mergeItems t items = Except.ok t2 := by
  induction items generalizing t with
  | nil => exact ⟨t, rfl⟩
  | cons it rest ih =>
    obtain ⟨d2, hd2⟩ := Option.isSome_iff_exists.mp (hp it (List.mem_cons_self it rest))
    obtain ⟨t2, ht2⟩ := ih (setCell t d2 it.subject it.views)
      (fun x hx => hp x (List.mem_cons_of_mem it hx))
    refine ⟨t2, ?_⟩
    simp only [mergeItems, List.foldlM_cons, hd2, pure_bind]
    exact ht2

theorem mergeItems_cell_isSome_inv (items : List Item) (t t2 : Table)
    (hok : mergeItems t items = Except.ok t2) (d : DT) (a : String)
    (h : (cell t2 d a).isSome) :
    (cell t d a).isSome ∨ ∃ it ∈ items, it.subject = a := by
  induction items generalizing t with
  | nil =>
    simp only [mergeItems, List.foldlM_nil] at hok
    cases hok
    exact Or.inl h
  | cons it rest ih =>
    simp only [mergeItems, List.foldlM_cons] at hok
    cases hp : parse_date it.timestamp with
    | none => rw [hp] at hok; cases hok
    | some d2 =>
      rw [hp] at hok
      simp only [pure_bind] at hok
      rcases ih (setCell t d2 it.subject it.views) hok with hsome | ⟨x, hx, hxa⟩
      · by_cases hq : d = d2 ∧ a = it.subject
        · exact Or.inr ⟨it, List.mem_cons_self it rest, hq.2.symm⟩
        · rw [cell_setCell_ne t d2 it.subject it.views d a (by tauto)] at hsome
          exact Or.inl hsome
      · exact Or.inr ⟨x, List.mem_cons_of_mem it hx, hxa⟩

theorem exc_error_bind {ε α β : Type} (e : ε) (f : α → Except ε β) :
    (Except.error e >>= f) = Except.error e := rfl

theorem exc_ok_bind {ε α β : Type} (x : α) (f : α → Except ε β) :
    (Except.ok x >>= f) = f x := rfl

theorem mergeStep_bad (init : Table × Bool) (r : RawResult Body)
    (hb : r.body = Body.bad) : mergeStep init r = Except.error PvError.jsonError := by
  simp [mergeStep, hb, throw, throwThe, MonadExceptOf.throw]

theorem mergeStep_noItems (init : Table × Bool) (r : RawResult Body)
    (hb : r.body = Body.noItems) : mergeStep init r = Except.ok init := by
  simp [mergeStep, hb, pure, Except.pure]

theorem mergeStep_items (init : Table × Bool) (r : RawResult Body)
    (l : List Item) (t2 : Table) (hb : r.body = Body.items l)
    (hmi : mergeItems init.1 l = Except.ok t2) :
    mergeStep init r = Except.ok (t2, true) := by
  simp only [mergeStep, hb, hmi, exc_ok_bind]
  rfl

theorem mergeStep_items_err (init : Table × Bool) (r : RawResult Body)
    (l : List Item) (e : PvError) (hb : r.body = Body.items l)
    (hmi : mergeItems init.1 l = Except.error e) :
    mergeStep init r = Except.error e := by
  simp only [mergeStep, hb, hmi]
  rfl

theorem mergeFold_cell_unmentioned (results : List (RawResult Body))
    (init out : Table × Bool) (hok : results.foldlM mergeStep init = Except.ok out)
    (d : DT) (a : String)
    (hun : ∀ r ∈ results, ∀ l, r.body = Body.items l → ¬ mentionsItems l d a) :
    cell out.1 d a = cell init.1 d a := by
  induction results generalizing init with
  | nil =>
    simp only [List.foldlM_nil] at hok
    cases hok
    rfl
  | cons r rest ih =>
    rw [List.foldlM_cons] at hok
    cases hb : r.body with
    | bad => rw [mergeStep_bad init r hb, exc_error_bind] at hok; cases hok
    | noItems =>
      rw [mergeStep_noItems init r hb, exc_ok_bind] at hok
      exact ih init hok (fun x hx => hun x (List.mem_cons_of_mem r hx))
    | items l =>
      cases hmi : mergeItems init.1 l with
      | error e =>
        rw [mergeStep_items_err init r l e hb hmi, exc_error_bind] at hok
        cases hok
      | ok t2 =>
        rw [mergeStep_items init r l t2 hb hmi, exc_ok_bind] at hok
        rw [ih (t2, true) hok (fun x hx => hun x (List.mem_cons_of_mem r hx))]
        exact mergeItems_cell_unmentioned l init.1 t2 hmi d a
          (hun r (List.mem_cons_self r rest) l hb)

theorem mergeFold_cell_isSome (results : List (RawResult Body))
    (init out : Table × Bool) (hok : results.foldlM mergeStep init = Except.ok out)
    (d : DT) (a : String) (h : (cell init.1 d a).isSome) :
    (cell out.1 d a).isSome := by
  induction results generalizing init with
  | nil =>
    simp only [List.foldlM_nil] at hok
    cases hok
    exact h
  | cons r rest ih =>
    rw [List.foldlM_cons] at hok
    cases hb : r.body with
    | bad => rw [mergeStep_bad init r hb, exc_error_bind] at hok; cases hok
    | noItems =>
      rw [mergeStep_noItems init r hb, exc_ok_bind] at hok
      exact ih init hok h
    | items l =>
      cases hmi : mergeItems init.1 l with
      | error e =>
        rw [mergeStep_items_err init r l e hb hmi, exc_error_bind] at hok
        cases hok
      | ok t2 =>
        rw [mergeStep_items init r l t2 hb hmi, exc_ok_bind] at hok
        exact ih (t2, true) hok (mergeItems_cell_isSome l init.1 t2 hmi d a h)

theorem mergeFold_cell_isSome_inv (results : List (RawResult Body))
    (init out : Table × Bool) (hok : results.foldlM mergeStep init = Except.ok out)
    (d : DT) (a : String) (h : (cell out.1 d a).isSome) :
    (cell init.1 d a).isSome ∨
      ∃ r ∈ results, ∃ l, r.body = Body.items l ∧ ∃ it ∈ l, it.subject = a := by
  induction results generalizing init with
  | nil =>
    simp only [List.foldlM_nil] at hok
    cases hok
    exact Or.inl h
  | cons r rest ih =>
    rw [List.foldlM_cons] at hok
    cases hb : r.body with
    | bad => rw [mergeStep_bad init r hb, exc_error_bind] at hok; cases hok
    | noItems =>
      rw [mergeStep_noItems init r hb, exc_ok_bind] at hok
      rcases ih init hok with hs | ⟨x, hx, hrest⟩
      · exact Or.inl hs
      · exact Or.inr ⟨x, List.mem_cons_of_mem r hx, hrest⟩
    | items l =>
      cases hmi : mergeItems init.1 l with
      | error e =>
        rw [mergeStep_items_err init r l e hb hmi, exc_error_bind] at hok
        cases hok
      | ok t2 =>
        rw [mergeStep_items init r l t2 hb hmi, exc_ok_bind] at hok
        rcases ih (t2, true) hok with hs | ⟨x, hx, hrest⟩
        · rcases mergeItems_cell_isSome_inv l init.1 t2 hmi d a hs with
            hs2 | ⟨it, hit, hita⟩
          · exact Or.inl hs2
          · exact Or.inr ⟨r, List.mem_cons_self r rest, l, hb, it, hit, hita⟩
        · exact Or.inr ⟨x, List.mem_cons_of_mem r hx, hrest⟩

theorem mergeFold_ok_of_wellFormed (results : List (RawResult Body))
    (init : Table × Bool) (hwf : ∀ r ∈ results, wellFormed r) :
    ∃ out, results.foldlM mergeStep init = Except.ok out := by
  induction results generalizing init with
  | nil => exact ⟨init, rfl⟩
  | cons r rest ih =>
    obtain ⟨hbad, hparse⟩ := hwf r (List.mem_cons_self r rest)
    cases hb : r.body with
    | bad => exact absurd hb hbad
    | noItems =>
      obtain ⟨out, hout⟩ := ih init (fun x hx => hwf x (List.mem_cons_of_mem r hx))
      refine ⟨out, ?_⟩
      rw [List.foldlM_cons, mergeStep_noItems init r hb, exc_ok_bind]
      exact hout
    | items l =>
      obtain ⟨t2, ht2⟩ := mergeItems_ok_of_parses l init.1 (hparse l hb)
      obtain ⟨out, hout⟩ := ih (t2, true) (fun x hx => hwf x (List.mem_cons_of_mem r hx))
      refine ⟨out, ?_⟩
      rw [List.foldlM_cons, mergeStep_items init r l t2 hb ht2, exc_ok_bind]
      exact hout

theorem get_wikipedia_error_429 {β : Type} (results : List (RawResult β)) (b : Bool)
    (h : ∃ r ∈ results, r.status_code = 429) :
    get_wikipedia_error results b = some PvError.apiLimitExceeded := by
  unfold get_wikipedia_error
  obtain ⟨r, hr, h4⟩ := h
  have hsome : (results.find? (fun r => r.status_code = 429)).isSome :=
    List.find?_isSome.mpr ⟨r, hr, by simp [h4]⟩
  cases hf : results.find? (fun r => r.status_code = 429) with
  | some x => rfl
  | none => rw [hf] at hsome; cases hsome

/-- C1 (amended): if any result of the batch has HTTP status 429 and
every result body is well formed (parses as JSON, item timestamps
parseable), both `article_views` and `project_views` raise
`ApiLimitExceeded`, whatever the usable-data situation — the 429 takes
priority over the no-usable-data error.  For `project_views` the
granularity must be one the increment selection survives, else no batch
is ever fetched. -/
theorem c1_any_429_raises_rate_limit (articles projects : List String)
    (startDate endDate : DT) (g g2 : String) (results : List (RawResult Body))
    (hwf : ∀ r ∈ results, wellFormed r)
    (h429 : ∃ r ∈ results, r.status_code = 429)
    (hg2 : g2 = "hourly" ∨ g2 = "daily") :
    article_views_core articles startDate endDate g results =
        Except.error PvError.apiLimitExceeded ∧
      project_views_core projects startDate endDate g2 results =
        Except.error PvError.apiLimitExceeded := by
  constructor
  · obtain ⟨out, hmr⟩ := mergeFold_ok_of_wellFormed results
      (preseed (tbGo startDate endDate 24) (articles.map spaceToUnderscore), false) hwf
    simp only [article_views_core, mergeResults]
    rw [hmr, exc_ok_bind]
    rw [get_wikipedia_error_429 results _ h429]
    rfl
  · have hsel : ∃ inc, selectIncrement g2 = Except.ok inc := by
      rcases hg2 with h | h <;> subst h
      · exact ⟨1, rfl⟩
      · exact ⟨24, rfl⟩
    obtain ⟨inc, hinc⟩ := hsel
    obtain ⟨out, hmr⟩ := mergeFold_ok_of_wellFormed results
      (preseed (tbGo startDate endDate inc) projects, false) hwf
    simp only [project_views_core, mergeResults]
    rw [hinc, exc_ok_bind, hmr, exc_ok_bind]
    rw [get_wikipedia_error_429 results _ h429]
    rfl

/-- Closed witness for the amended C1: a two-result batch with one 429
and one well-formed success. -/
theorem c1_any_429_raises_rate_limit_witness :
    ((∀ r ∈ [(⟨200, "u1", Body.items [⟨"2023010100", "Cat", 4⟩]⟩ : RawResult Body),
        ⟨429, "u2", Body.noItems⟩], wellFormed r) ∧
      (∃ r ∈ [(⟨200, "u1", Body.items [⟨"2023010100", "Cat", 4⟩]⟩ : RawResult Body),
        ⟨429, "u2", Body.noItems⟩], r.status_code = 429) ∧
      ("hourly" = "hourly" ∨ "hourly" = "daily")) ∧
      (article_views_core ["Cat"] ⟨2023, 1, 1, 0⟩ ⟨2023, 1, 1, 0⟩ "daily"
          [⟨200, "u1", Body.items [⟨"2023010100", "Cat", 4⟩]⟩,
            ⟨429, "u2", Body.noItems⟩] =
          Except.error PvError.apiLimitExceeded ∧
        project_views_core ["en.wikipedia"] ⟨2023, 1, 1, 0⟩ ⟨2023, 1, 1, 0⟩ "hourly"
          [⟨200, "u1", Body.items [⟨"2023010100", "Cat", 4⟩]⟩,
            ⟨429, "u2", Body.noItems⟩] =
          Except.error PvError.apiLimitExceeded) := by
  have hwf : ∀ r ∈ [(⟨200, "u1", Body.items [⟨"2023010100", "Cat", 4⟩]⟩ :
      RawResult Body), ⟨429, "u2", Body.noItems⟩], wellFormed r := by
    intro r hr
    simp only [List.mem_cons, List.not_mem_nil, or_false] at hr
    rcases hr with rfl | rfl
    · refine ⟨by decide, fun l hl => ?_⟩
      cases hl
      intro it hit
      simp only [List.mem_singleton] at hit
      subst hit
      decide
    · exact ⟨by decide, fun l hl => by cases hl⟩
  exact ⟨⟨hwf, by decide, by decide⟩,
    c1_any_429_raises_rate_limit ["Cat"] ["en.wikipedia"] ⟨2023, 1, 1, 0⟩
      ⟨2023, 1, 1, 0⟩ "daily" "hourly"
      [⟨200, "u1", Body.items [⟨"2023010100", "Cat", 4⟩]⟩, ⟨429, "u2", Body.noItems⟩]
      hwf (by decide) (by decide)⟩

/-! ### Helper lemmas: monthly roll-up -/

theorem rollupArticle_ok_cases (m : DT) (om : Table) (a : String)
    (v : Option Int) (om2 : Table) (hok : rollupArticle m om a v = Except.ok om2) :
    (pytruthy v = false ∧ om2 = om) ∨
      (pytruthy v = true ∧ ∃ mrow cur, tblGet om m = some mrow ∧
        rowGet mrow a = some cur ∧
        om2 = tblSet om m (rowSet mrow a (some (pyOr0 cur + v.getD 0)))) := by
  unfold rollupArticle at hok
  split at hok
  · rename_i htr
    split at hok
    · cases hok
    · rename_i mrow hmr
      split at hok
      · cases hok
      · rename_i cur hcur
        cases hok
        exact Or.inr ⟨htr, mrow, cur, hmr, hcur, rfl⟩
  · rename_i htr
    cases hok
    exact Or.inl ⟨Bool.eq_false_iff.mpr htr, rfl⟩

theorem rollupArticle_cell_ne (m : DT) (om : Table) (a : String)
    (v : Option Int) (om2 : Table) (hok : rollupArticle m om a v = Except.ok om2)
    (m2 : DT) (a2 : String) (h : m2 ≠ m ∨ a2 ≠ a) :
    cell om2 m2 a2 = cell om m2 a2 := by
  rcases rollupArticle_ok_cases m om a v om2 hok with ⟨_, rfl⟩ |
    ⟨_, mrow, cur, hmr, hcur, rfl⟩
  · rfl
  · by_cases hm : m2 = m
    · subst hm
      have ha : a2 ≠ a := h.resolve_left (by simp)
      simp [cell, tblGet_tblSet_self, rowGet_rowSet_ne mrow a a2 _ ha, hmr]
    · simp [cell, tblGet_tblSet_ne om m m2 _ hm]

theorem rollupArticle_cell_isSome (m : DT) (om : Table) (a : String)
    (v : Option Int) (om2 : Table) (hok : rollupArticle m om a v = Except.ok om2)
    (m2 : DT) (a2 : String) (h : (cell om m2 a2).isSome) :
    (cell om2 m2 a2).isSome := by
  by_cases hq : m2 = m ∧ a2 = a
  · obtain ⟨rfl, rfl⟩ := hq
    rcases rollupArticle_ok_cases m2 om a2 v om2 hok with ⟨_, rfl⟩ |
      ⟨_, mrow, cur, hmr, hcur, rfl⟩
    · exact h
    · simp [cell, tblGet_tblSet_self, rowGet_rowSet_self]
  · rw [rollupArticle_cell_ne m om a v om2 hok m2 a2 (by tauto)]
    exact h

theorem rollupArticle_cell_isSome_inv (m : DT) (om : Table) (a : String)
    (v : Option Int) (om2 : Table) (hok : rollupArticle m om a v = Except.ok om2)
    (m2 : DT) (a2 : String) (h : (cell om2 m2 a2).isSome) :
    (cell om m2 a2).isSome := by
  by_cases hq : m2 = m ∧ a2 = a
  · obtain ⟨rfl, rfl⟩ := hq
    rcases rollupArticle_ok_cases m2 om a2 v om2 hok with ⟨_, rfl⟩ |
      ⟨_, mrow, cur, hmr, hcur, _⟩
    · exact h
    · simp [cell, hmr, hcur]
  · rw [rollupArticle_cell_ne m om a v om2 hok m2 a2 (by tauto)] at h
    exact h

theorem rollupArticle_tblGet_none (m : DT) (om : Table) (a : String)
    (v : Option Int) (om2 : Table) (hok : rollupArticle m om a v = Except.ok om2)
    (m2 : DT) : (tblGet om2 m2 = none ↔ tblGet om m2 = none) := by
  rcases rollupArticle_ok_cases m om a v om2 hok with ⟨_, rfl⟩ |
    ⟨_, mrow, cur, hmr, hcur, rfl⟩
  · exact Iff.rfl
  · by_cases hm : m2 = m
    · subst hm
      simp [tblGet_tblSet_self, hmr]
    · rw [tblGet_tblSet_ne om m m2 _ hm]

theorem rowFold_props (row : Row) (m : DT) :
    ∀ om om2, row.foldlM (fun acc q => rollupArticle m acc q.1 q.2) om =
      Except.ok om2 →
    (∀ m2 a2, (cell om m2 a2).isSome → (cell om2 m2 a2).isSome) ∧
      (∀ m2 a2, (cell om2 m2 a2).isSome → (cell om m2 a2).isSome) ∧
      (∀ m2, tblGet om2 m2 = none ↔ tblGet om m2 = none) ∧
      (∀ m2 a2, m2 ≠ m → cell om2 m2 a2 = cell om m2 a2) ∧
      (∀ a2, (∀ q ∈ row, q.1 = a2 → pytruthy q.2 = false) →
        cell om2 m a2 = cell om m a2) := by
  induction row with
  | nil =>
    intro om om2 hok
    simp only [List.foldlM_nil] at hok
    cases hok
    exact ⟨fun _ _ h => h, fun _ _ h => h, fun _ => Iff.rfl,
      fun _ _ _ => rfl, fun _ _ => rfl⟩
  | cons q rest ih =>
    intro om om2 hok
    rw [List.foldlM_cons] at hok
    cases hra : rollupArticle m om q.1 q.2 with
    | error e => rw [hra, exc_error_bind] at hok; cases hok
    | ok omq =>
      rw [hra, exc_ok_bind] at hok
      obtain ⟨i1, i2, i3, i4, i5⟩ := ih omq om2 hok
      refine ⟨?_, ?_, ?_, ?_, ?_⟩
      · intro m2 a2 h
        exact i1 m2 a2 (rollupArticle_cell_isSome m om q.1 q.2 omq hra m2 a2 h)
      · intro m2 a2 h
        exact rollupArticle_cell_isSome_inv m om q.1 q.2 omq hra m2 a2 (i2 m2 a2 h)
      · intro m2
        exact (i3 m2).trans (rollupArticle_tblGet_none m om q.1 q.2 omq hra m2)
      · intro m2 a2 hm
        rw [i4 m2 a2 hm]
        exact rollupArticle_cell_ne m om q.1 q.2 omq hra m2 a2 (Or.inl hm)
      · intro a2 hq
        have hrest : ∀ x ∈ rest, x.1 = a2 → pytruthy x.2 = false :=
          fun x hx => hq x (List.mem_cons_of_mem q hx)
        rw [i5 a2 hrest]
        by_cases hqa : q.1 = a2
        · have htr : pytruthy q.2 = false := hq q (List.mem_cons_self q rest) hqa
          rcases rollupArticle_ok_cases m om q.1 q.2 omq hra with ⟨_, rfl⟩ |
            ⟨htr2, _⟩
          · rfl
          · rw [htr] at htr2; cases htr2
        · exact rollupArticle_cell_ne m om q.1 q.2 omq hra m a2 (Or.inr (Ne.symm hqa))

theorem seedStep_props (articles : List String) (om : Table) (m : DT)
    (omA : Table)
    (homA : omA = if (tblGet om m).isSome then om
      else tblSet om m (preseedRow articles)) :
    tblGet omA m ≠ none ∧
      (∀ m2, tblGet om m2 ≠ none → tblGet omA m2 ≠ none) ∧
      (∀ m2 a2, (cell om m2 a2).isSome → (cell omA m2 a2).isSome) ∧
      (∀ m2 a2, (cell omA m2 a2).isSome →
        (cell om m2 a2).isSome ∨ (rowGet (preseedRow articles) a2).isSome) ∧
      (∀ m2 a2, (cell om m2 a2 = some none ∨ cell om m2 a2 = none) →
        (cell omA m2 a2 = some none ∨ cell omA m2 a2 = none)) ∧
      (rowComplete articles om → rowComplete articles omA) := by
  by_cases hseed : (tblGet om m).isSome
  · rw [if_pos hseed] at homA
    rw [homA]
    refine ⟨?_, fun _ h => h, fun _ _ h => h, fun _ _ h => Or.inl h,
      fun _ _ h => h, fun h => h⟩
    intro hno
    rw [hno] at hseed
    simp at hseed
  · rw [if_neg hseed] at homA
    subst homA
    have hnone : tblGet om m = none := by
      cases h : tblGet om m with
      | none => rfl
      | some _ => rw [h] at hseed; simp at hseed
    have hcellm : ∀ a2, cell om m a2 = none := by
      intro a2
      simp [cell, hnone]
    have hcellA : ∀ a2, cell (tblSet om m (preseedRow articles)) m a2 =
        rowGet (preseedRow articles) a2 := by
      intro a2
      simp [cell, tblGet_tblSet_self]
    have hne : ∀ m2, m2 ≠ m →
        tblGet (tblSet om m (preseedRow articles)) m2 = tblGet om m2 :=
      fun m2 hm2 => tblGet_tblSet_ne om m m2 _ hm2
    have hcellne : ∀ m2 a2, m2 ≠ m →
        cell (tblSet om m (preseedRow articles)) m2 a2 = cell om m2 a2 := by
      intro m2 a2 hm2
      simp [cell, hne m2 hm2]
    refine ⟨by simp [tblGet_tblSet_self], ?_, ?_, ?_, ?_, ?_⟩
    · intro m2 hm2
      by_cases h : m2 = m
      · subst h; simp [tblGet_tblSet_self]
      · rw [hne m2 h]; exact hm2
    · intro m2 a2 h
      by_cases hm2 : m2 = m
      · subst hm2; rw [hcellm a2] at h; cases h
      · rw [hcellne m2 a2 hm2]; exact h
    · intro m2 a2 h
      by_cases hm2 : m2 = m
      · subst hm2; rw [hcellA a2] at h; exact Or.inr h
      · rw [hcellne m2 a2 hm2] at h; exact Or.inl h
    · intro m2 a2 h
      by_cases hm2 : m2 = m
      · subst hm2
        rw [hcellA a2, rowGet_preseedRow]
        by_cases hmem : a2 ∈ articles <;> simp [hmem]
      · rw [hcellne m2 a2 hm2]; exact h
    · intro hrc m2 a2 hpre
      by_cases hm2 : m2 = m
      · subst hm2
        right
        rw [hcellA a2]
        exact hpre
      · rcases hrc m2 a2 hpre with hl | hr
        · exact Or.inl (by rw [hne m2 hm2]; exact hl)
        · exact Or.inr (by rw [hcellne m2 a2 hm2]; exact hr)

theorem rollFold_spec (articles : List String) (entries : List (DT × Row)) :
    ∀ om om2, entries.foldlM (rollStep articles) om = Except.ok om2 →
      rowComplete articles om →
      rowComplete articles om2 ∧
        (∀ m2, tblGet om m2 ≠ none → tblGet om2 m2 ≠ none) ∧
        (∀ m2 a2, (cell om m2 a2).isSome → (cell om2 m2 a2).isSome) ∧
        (∀ p ∈ entries, tblGet om2 (month_from_day p.1) ≠ none) ∧
        (∀ m2 a2, (cell om2 m2 a2).isSome →
          (cell om m2 a2).isSome ∨ (rowGet (preseedRow articles) a2).isSome) ∧
        (∀ m2 a2, (cell om m2 a2 = some none ∨ cell om m2 a2 = none) →
          (∀ p ∈ entries, month_from_day p.1 = m2 →
            ∀ q ∈ p.2, q.1 = a2 → pytruthy q.2 = false) →
          (cell om2 m2 a2 = some none ∨ cell om2 m2 a2 = none)) := by
  induction entries with
  | nil =>
    intro om om2 hok hrc
    simp only [List.foldlM_nil] at hok
    cases hok
    exact ⟨hrc, fun _ h => h, fun _ _ h => h, by simp, fun _ _ h => Or.inl h,
      fun _ _ h _ => h⟩
  | cons p rest ih =>
    intro om om2 hok hrc
    rw [List.foldlM_cons] at hok
    cases hrs : rollStep articles om p with
    | error e => rw [hrs, exc_error_bind] at hok; cases hok
    | ok omB =>
      rw [hrs, exc_ok_bind] at hok
      simp only [rollStep] at hrs
      obtain ⟨s1, s2, s3, s4, s5, s6⟩ := seedStep_props articles om
        (month_from_day p.1)
        (if (tblGet om (month_from_day p.1)).isSome then om
          else tblSet om (month_from_day p.1) (preseedRow articles)) rfl
      obtain ⟨i1, i2, i3, i4, i5⟩ := rowFold_props p.2 (month_from_day p.1) _ omB hrs
      have hrcB : rowComplete articles omB := by
        intro m2 a2 hpre
        rcases s6 hrc m2 a2 hpre with hl | hr
        · exact Or.inl ((i3 m2).mpr hl)
        · exact Or.inr (i1 m2 a2 hr)
      obtain ⟨c1, c2, c3, c4, c5, c6⟩ := ih omB om2 hok hrcB
      have htblB : ∀ m2, tblGet om m2 ≠ none → tblGet omB m2 ≠ none := by
        intro m2 h
        intro hno
        exact s2 m2 h ((i3 m2).mp hno)
      refine ⟨c1, ?_, ?_, ?_, ?_, ?_⟩
      · intro m2 h
        exact c2 m2 (htblB m2 h)
      · intro m2 a2 h
        exact c3 m2 a2 (i1 m2 a2 (s3 m2 a2 h))
      · intro p2 hp2
        rcases List.mem_cons.mp hp2 with rfl | hp2
        · refine c2 (month_from_day p2.1) ?_
          intro hno
          exact s1 ((i3 (month_from_day p2.1)).mp hno)
        · exact c4 p2 hp2
      · intro m2 a2 h
        rcases c5 m2 a2 h with hB | hpre
        · have hA := i2 m2 a2 hB
          rcases s4 m2 a2 hA with hom | hpre2
          · exact Or.inl hom
          · exact Or.inr hpre2
        · exact Or.inr hpre
      · intro m2 a2 hab hq
        have habA := s5 m2 a2 hab
        have habB : cell omB m2 a2 = some none ∨ cell omB m2 a2 = none := by
          by_cases hm2 : m2 = month_from_day p.1
          · subst hm2
            have hqp : ∀ q ∈ p.2, q.1 = a2 → pytruthy q.2 = false :=
              hq p (List.mem_cons_self p rest) rfl
            rw [i5 a2 hqp]
            exact habA
          · rw [i4 m2 a2 hm2]
            exact habA
        exact c6 m2 a2 habB
          (fun x hx => hq x (List.mem_cons_of_mem p hx))

/-! ### Helper lemmas: dict key uniqueness -/

theorem rowSet_keys (r : Row) (a : String) (v : Option Int) :
    (rowSet r a v).map Prod.fst =
      if a ∈ r.map Prod.fst then r.map Prod.fst else r.map Prod.fst ++ [a] := by
  induction r with
  | nil => simp [rowSet]
  | cons p rest ih =>
    by_cases hp : p.1 = a
    · simp [rowSet, hp]
    · simp only [rowSet, if_neg hp, List.map_cons, ih]
      by_cases hmem : a ∈ rest.map Prod.fst
      · simp [hmem, Ne.symm hp]
      · simp [hmem, Ne.symm hp, hp]

theorem rowSet_nodup (r : Row) (a : String) (v : Option Int)
    (h : (r.map Prod.fst).Nodup) : ((rowSet r a v).map Prod.fst).Nodup := by
  rw [rowSet_keys]
  by_cases hmem : a ∈ r.map Prod.fst
  · simpa [hmem] using h
  · simp only [hmem, if_false]
    refine List.Nodup.append h (List.nodup_singleton a) ?_
    intro x hx hxa
    simp only [List.mem_singleton] at hxa
    subst hxa
    exact hmem hx

theorem tblSet_keys (t : Table) (d : DT) (r : Row) :
    (tblSet t d r).map Prod.fst =
      if d ∈ t.map Prod.fst then t.map Prod.fst else t.map Prod.fst ++ [d] := by
  induction t with
  | nil => simp [tblSet]
  | cons p rest ih =>
    by_cases hp : p.1 = d
    · simp [tblSet, hp]
    · simp only [tblSet, if_neg hp, List.map_cons, ih]
      by_cases hmem : d ∈ rest.map Prod.fst
      · simp [hmem, Ne.symm hp]
      · simp [hmem, Ne.symm hp, hp]

theorem mem_tblSet_elim (t : Table) (d : DT) (r : Row) (p : DT × Row)
    (hp : p ∈ tblSet t d r) : p = (d, r) ∨ p ∈ t := by
  induction t with
  | nil =>
    simp only [tblSet, List.mem_singleton] at hp
    exact Or.inl hp
  | cons q rest ih =>
    by_cases hq : q.1 = d
    · simp only [tblSet, if_pos hq, List.mem_cons] at hp
      rcases hp with rfl | hp
      · exact Or.inl rfl
      · exact Or.inr (List.mem_cons_of_mem q hp)
    · simp only [tblSet, if_neg hq, List.mem_cons] at hp
      rcases hp with rfl | hp
      · exact Or.inr (List.mem_cons_self p rest)
      · rcases ih hp with h | h
        · exact Or.inl h
        · exact Or.inr (List.mem_cons_of_mem q h)

theorem tblSet_tblNodup (t : Table) (d : DT) (r : Row)
    (ht : tblNodup t) (hr : (r.map Prod.fst).Nodup) : tblNodup (tblSet t d r) := by
  obtain ⟨hk, hrows⟩ := ht
  constructor
  · rw [tblSet_keys]
    by_cases hmem : d ∈ t.map Prod.fst
    · simpa [hmem] using hk
    · simp only [hmem, if_false]
      refine List.Nodup.append hk (List.nodup_singleton d) ?_
      intro x hx hxd
      simp only [List.mem_singleton] at hxd
      subst hxd
      exact hmem hx
  · intro p hp
    rcases mem_tblSet_elim t d r p hp with rfl | hp
    · exact hr
    · exact hrows p hp

theorem preseedRow_nodup (subs : List String) :
    ((preseedRow subs).map Prod.fst).Nodup := by
  unfold preseedRow
  suffices h : ∀ init : Row, (init.map Prod.fst).Nodup →
      ((subs.foldl (fun r a => rowSet r a none) init).map Prod.fst).Nodup by
    exact h [] (by simp)
  induction subs with
  | nil => intro init h; simpa using h
  | cons a rest ih =>
    intro init h
    simp only [List.foldl_cons]
    exact ih (rowSet init a none) (rowSet_nodup init a none h)

theorem preseed_tblNodup (days : List DT) (subs : List String) :
    tblNodup (preseed days subs) := by
  unfold preseed
  suffices h : ∀ init : Table, tblNodup init →
      tblNodup (days.foldl (fun t d => tblSet t d (preseedRow subs)) init) by
    exact h [] ⟨by simp, by simp⟩
  induction days with
  | nil => intro init h; simpa using h
  | cons d rest ih =>
    intro init h
    simp only [List.foldl_cons]
    exact ih (tblSet init d (preseedRow subs))
      (tblSet_tblNodup init d (preseedRow subs) h (preseedRow_nodup subs))

theorem setCell_tblNodup (t : Table) (d : DT) (a : String) (v : Int)
    (ht : tblNodup t) : tblNodup (setCell t d a v) := by
  unfold setCell
  cases hrow : tblGet t d with
  | some row =>
    have hrmem : (d, row) ∈ t := by
      unfold tblGet at hrow
      cases hf : t.find? (fun p => p.1 = d) with
      | none => rw [hf] at hrow; cases hrow
      | some p =>
        rw [hf] at hrow
        have hp1 : p.1 = d := by
          have := List.find?_some hf
          simpa using this
        have hpm := List.mem_of_find?_eq_some hf
        cases hrow
        obtain ⟨p1, p2⟩ := p
        simp only at hp1
        subst hp1
        exact hpm
    exact tblSet_tblNodup t d _ ht (rowSet_nodup row a (some v) (ht.2 (d, row) hrmem))
  | none =>
    exact tblSet_tblNodup t d _ ht (by simp)

theorem mergeItems_tblNodup (items : List Item) :
    ∀ t t2, mergeItems t items = Except.ok t2 → tblNodup t → tblNodup t2 := by
  induction items with
  | nil =>
    intro t t2 hok h
    simp only [mergeItems, List.foldlM_nil] at hok
    cases hok
    exact h
  | cons it rest ih =>
    intro t t2 hok h
    simp only [mergeItems, List.foldlM_cons] at hok
    cases hp : parse_date it.timestamp with
    | none => rw [hp] at hok; cases hok
    | some d2 =>
      rw [hp] at hok
      simp only [pure_bind] at hok
      exact ih _ t2 hok (setCell_tblNodup t d2 it.subject it.views h)

theorem mergeFold_tblNodup (results : List (RawResult Body)) :
    ∀ init out, results.foldlM mergeStep init = Except.ok out →
      tblNodup init.1 → tblNodup out.1 := by
  induction results with
  | nil =>
    intro init out hok h
    simp only [List.foldlM_nil] at hok
    cases hok
    exact h
  | cons r rest ih =>
    intro init out hok h
    rw [List.foldlM_cons] at hok
    cases hb : r.body with
    | bad => rw [mergeStep_bad init r hb, exc_error_bind] at hok; cases hok
    | noItems =>
      rw [mergeStep_noItems init r hb, exc_ok_bind] at hok
      exact ih init out hok h
    | items l =>
      cases hmi : mergeItems init.1 l with
      | error e =>
        rw [mergeStep_items_err init r l e hb hmi, exc_error_bind] at hok
        cases hok
      | ok t2 =>
        rw [mergeStep_items init r l t2 hb hmi, exc_ok_bind] at hok
        exact ih (t2, true) out hok (mergeItems_tblNodup l init.1 t2 hmi h)

theorem find?_pair_of_mem_nodup {α β : Type} [DecidableEq α]
    (l : List (α × β)) (hnd : (l.map Prod.fst).Nodup) (k : α) (v : β)
    (hm : (k, v) ∈ l) : l.find? (fun p => p.1 = k) = some (k, v) := by
  induction l with
  | nil => cases hm
  | cons p rest ih =>
    have hnd2 : (p.1 :: rest.map Prod.fst).Nodup := by simpa using hnd
    rcases List.mem_cons.mp hm with rfl | hm2
    · simp [List.find?_cons]
    · have hkm : k ∈ rest.map Prod.fst := by
        simpa using List.mem_map_of_mem Prod.fst hm2
      have hk : p.1 ≠ k := fun he =>
        (List.nodup_cons.mp hnd2).1 (by rw [he]; exact hkm)
      simp only [List.find?_cons, decide_eq_false hk]
      exact ih (by simpa using (List.nodup_cons.mp hnd2).2) hm2

theorem cell_of_entry (t : Table) (hnd : tblNodup t) (p : DT × Row)
    (hp : p ∈ t) (q : String × Option Int) (hq : q ∈ p.2) :
    cell t p.1 q.1 = some q.2 := by
  have h1 : tblGet t p.1 = some p.2 := by
    unfold tblGet
    rw [show p = (p.1, p.2) from rfl] at hp
    rw [find?_pair_of_mem_nodup t hnd.1 p.1 p.2 hp]
  have h2 : rowGet p.2 q.1 = some q.2 := by
    unfold rowGet
    rw [show q = (q.1, q.2) from rfl] at hq
    rw [find?_pair_of_mem_nodup p.2 (hnd.2 p hp) q.1 q.2 hq]
  simp [cell, h1, h2]

theorem tblGet_mem (t : Table) (d : DT) (r : Row) (h : tblGet t d = some r) :
    (d, r) ∈ t := by
  unfold tblGet at h
  cases hf : t.find? (fun p => p.1 = d) with
  | none => rw [hf] at h; cases h
  | some p =>
    rw [hf] at h
    cases h
    have hp1 : p.1 = d := by simpa using List.find?_some hf
    have hpm := List.mem_of_find?_eq_some hf
    obtain ⟨p1, p2⟩ := p
    simp only at hp1
    subst hp1
    exact hpm

theorem article_views_core_ok_decomp (articles : List String) (s e : DT)
    (g : String) (results : List (RawResult Body)) (tbl : Table)
    (hok : article_views_core articles s e g results = Except.ok tbl) :
    ∃ out : Table × Bool,
      List.foldlM mergeStep
          (preseed (tbGo s e 24) (articles.map spaceToUnderscore), false) results =
        Except.ok out ∧
      get_wikipedia_error results (!out.2) = none ∧
      ((g ≠ "monthly" ∧ tbl = out.1) ∨
        (g = "monthly" ∧
          monthlyRollup (articles.map spaceToUnderscore) out.1 = Except.ok tbl)) := by
  simp only [article_views_core, mergeResults] at hok
  cases hmr : List.foldlM mergeStep
      (preseed (tbGo s e 24) (articles.map spaceToUnderscore), false) results with
  | error e2 => rw [hmr, exc_error_bind] at hok; cases hok
  | ok out =>
    rw [hmr, exc_ok_bind] at hok
    refine ⟨out, rfl, ?_⟩
    split at hok
    · cases hok
    · rename_i hge
      refine ⟨hge, ?_⟩
      by_cases hg : g = "monthly"
      · rw [if_pos hg] at hok
        exact Or.inr ⟨hg, hok⟩
      · rw [if_neg hg] at hok
        cases hok
        exact Or.inl ⟨hg, rfl⟩

theorem project_views_core_ok_decomp (projects : List String) (s e : DT)
    (g : String) (results : List (RawResult Body)) (tbl : Table) (inc : Nat)
    (hok : project_views_core projects s e g results = Except.ok tbl)
    (hinc : selectIncrement g = Except.ok inc) :
    ∃ out : Table × Bool,
      List.foldlM mergeStep (preseed (tbGo s e inc) projects, false) results =
        Except.ok out ∧
      get_wikipedia_error results (!out.2) = none ∧ tbl = out.1 := by
  simp only [project_views_core, mergeResults] at hok
  rw [hinc, exc_ok_bind] at hok
  cases hmr : List.foldlM mergeStep (preseed (tbGo s e inc) projects, false) results with
  | error e2 => rw [hmr, exc_error_bind] at hok; cases hok
  | ok out =>
    rw [hmr, exc_ok_bind] at hok
    refine ⟨out, rfl, ?_⟩
    split at hok
    · cases hok
    · rename_i hge
      cases hok
      exact ⟨hge, rfl⟩

/-- C4: pre-seeding invariant.  For every successful call, every
(timestamp, subject) pair implied by the requested range and subject list
is present as a key of the returned table, with value `None` when no
response item mentioned that pair.  For `article_views` the implied
subject is the underscored title; with monthly granularity the implied
timestamp is the month bucket of each range day, and a month pair counts
as mentioned when some item addresses any day of that month. -/
theorem c4_preseeding_invariant (articles projects : List String)
    (startDate endDate : DT) (g g2 : String) (results : List (RawResult Body)) :
    (∀ tbl, article_views_core articles startDate endDate g results =
        Except.ok tbl → g ≠ "monthly" →
      ∀ t ∈ tbGo startDate endDate 24, ∀ a ∈ articles,
        ∃ v, cell tbl t (spaceToUnderscore a) = some v ∧
          (¬ mentions results t (spaceToUnderscore a) → v = none)) ∧
    (∀ tbl, article_views_core articles startDate endDate "monthly" results =
        Except.ok tbl →
      ∀ t ∈ tbGo startDate endDate 24, ∀ a ∈ articles,
        ∃ v, cell tbl (month_from_day t) (spaceToUnderscore a) = some v ∧
          ((∀ d2, month_from_day d2 = month_from_day t →
            ¬ mentions results d2 (spaceToUnderscore a)) → v = none)) ∧
    (∀ tbl inc, project_views_core projects startDate endDate g2 results =
        Except.ok tbl → selectIncrement g2 = Except.ok inc →
      ∀ t ∈ tbGo startDate endDate inc, ∀ p ∈ projects,
        ∃ v, cell tbl t p = some v ∧ (¬ mentions results t p → v = none)) := by
  refine ⟨?_, ?_, ?_⟩
  · intro tbl hok hg t ht a ha
    obtain ⟨out, hmr, hge, hcase⟩ :=
      article_views_core_ok_decomp articles startDate endDate g results tbl hok
    rcases hcase with ⟨_, rfl⟩ | ⟨hgm, _⟩
    · have hpa : spaceToUnderscore a ∈ articles.map spaceToUnderscore :=
        List.mem_map_of_mem spaceToUnderscore ha
      have hcellP : cell (preseed (tbGo startDate endDate 24)
          (articles.map spaceToUnderscore)) t (spaceToUnderscore a) = some none := by
        rw [cell_preseed]
        simp [ht, hpa]
      have hsome : (cell out.1 t (spaceToUnderscore a)).isSome :=
        mergeFold_cell_isSome results _ out hmr t (spaceToUnderscore a)
          (by simp [hcellP])
      obtain ⟨v, hv⟩ := Option.isSome_iff_exists.mp hsome
      refine ⟨v, hv, ?_⟩
      intro hun
      have hcell := mergeFold_cell_unmentioned results _ out hmr t
        (spaceToUnderscore a)
        (fun r hr l hl hmi => hun ⟨r, hr, l, hl, hmi⟩)
      rw [hv, hcellP] at hcell
      injection hcell
    · exact absurd hgm hg
  · intro tbl hok t ht a ha
    obtain ⟨out, hmr, hge, hcase⟩ :=
      article_views_core_ok_decomp articles startDate endDate "monthly" results
        tbl hok
    rcases hcase with ⟨hne, _⟩ | ⟨_, hroll⟩
    · exact absurd rfl hne
    · unfold monthlyRollup at hroll
      have rc0 : rowComplete (articles.map spaceToUnderscore) [] :=
        fun m2 a2 _ => Or.inl rfl
      obtain ⟨c1, c2, c3, c4, c5, c6⟩ :=
        rollFold_spec (articles.map spaceToUnderscore) out.1 [] tbl hroll rc0
      have hpa : spaceToUnderscore a ∈ articles.map spaceToUnderscore :=
        List.mem_map_of_mem spaceToUnderscore ha
      have hpre : (rowGet (preseedRow (articles.map spaceToUnderscore))
          (spaceToUnderscore a)).isSome := by
        rw [rowGet_preseedRow]
        simp [hpa]
      have hcellP : cell (preseed (tbGo startDate endDate 24)
          (articles.map spaceToUnderscore)) t (spaceToUnderscore a) = some none := by
        rw [cell_preseed]
        simp [ht, hpa]
      have hsome : (cell out.1 t (spaceToUnderscore a)).isSome :=
        mergeFold_cell_isSome results _ out hmr t (spaceToUnderscore a)
          (by simp [hcellP])
      obtain ⟨row, hrow⟩ : ∃ row, tblGet out.1 t = some row := by
        cases hr : tblGet out.1 t with
        | none => rw [cell, hr] at hsome; cases hsome
        | some row => exact ⟨row, rfl⟩
      have hentry : (t, row) ∈ out.1 := tblGet_mem out.1 t row hrow
      have hmonth : tblGet tbl (month_from_day t) ≠ none := c4 (t, row) hentry
      have hcellOk : (cell tbl (month_from_day t) (spaceToUnderscore a)).isSome := by
        rcases c1 (month_from_day t) (spaceToUnderscore a) hpre with hl | hr
        · exact absurd hl hmonth
        · exact hr
      obtain ⟨v, hv⟩ := Option.isSome_iff_exists.mp hcellOk
      refine ⟨v, hv, ?_⟩
      intro hun
      have hnodup : tblNodup out.1 :=
        mergeFold_tblNodup results _ out hmr (by exact preseed_tblNodup _ _)
      have hcond : ∀ p ∈ out.1, month_from_day p.1 = month_from_day t →
          ∀ q ∈ p.2, q.1 = spaceToUnderscore a → pytruthy q.2 = false := by
        intro p hp hpm q hq hqa
        by_contra htr
        have htr2 : pytruthy q.2 = true := by
          cases h : pytruthy q.2 with
          | false => exact absurd h htr
          | true => rfl
        have hcellq : cell out.1 p.1 q.1 = some q.2 :=
          cell_of_entry out.1 hnodup p hp q hq
        have hunp : ¬ mentions results p.1 (spaceToUnderscore a) :=
          hun p.1 hpm
        have hcell := mergeFold_cell_unmentioned results _ out hmr p.1
          (spaceToUnderscore a)
          (fun r hr l hl hmi => hunp ⟨r, hr, l, hl, hmi⟩)
        rw [hqa] at hcellq
        rw [hcellq] at hcell
        rw [cell_preseed] at hcell
        obtain ⟨n, hn, hn0⟩ : ∃ n, q.2 = some n ∧ n ≠ 0 := by
          cases hq2 : q.2 with
          | none => rw [hq2] at htr2; simp [pytruthy] at htr2
          | some n =>
            rw [hq2] at htr2
            simp only [pytruthy, decide_eq_true_eq] at htr2
            exact ⟨n, rfl, htr2⟩
        rw [hn] at hcell
        split at hcell
        · simp at hcell
        · cases hcell
      have habB := c6 (month_from_day t) (spaceToUnderscore a)
        (Or.inr rfl) hcond
      rcases habB with h1 | h1
      · rw [hv] at h1
        injection h1
      · rw [hv] at h1
        cases h1
  · intro tbl inc hok hinc t ht p hp
    obtain ⟨out, hmr, hge, rfl⟩ :=
      project_views_core_ok_decomp projects startDate endDate g2 results tbl
        inc hok hinc
    have hcellP : cell (preseed (tbGo startDate endDate inc) projects) t p =
        some none := by
      rw [cell_preseed]
      simp [ht, hp]
    have hsome : (cell out.1 t p).isSome :=
      mergeFold_cell_isSome results _ out hmr t p (by simp [hcellP])
    obtain ⟨v, hv⟩ := Option.isSome_iff_exists.mp hsome
    refine ⟨v, hv, ?_⟩
    intro hun
    have hcell := mergeFold_cell_unmentioned results _ out hmr t p
      (fun r hr l hl hmi => hun ⟨r, hr, l, hl, hmi⟩)
    rw [hv, hcellP] at hcell
    injection hcell

/-- Closed witness for C4: range 2023-01-01 alone, articles Cat and Dog,
the response carrying data only for Cat — instantiated at the
(2023-01-01, Dog) pair. -/
theorem c4_preseeding_invariant_witness :
    (article_views_core ["Cat", "Dog"] ⟨2023, 1, 1, 0⟩ ⟨2023, 1, 1, 0⟩ "daily"
        [⟨200, "u", Body.items [⟨"2023010100", "Cat", 5⟩]⟩] =
      Except.ok [(⟨2023, 1, 1, 0⟩, [("Cat", some 5), ("Dog", none)])] ∧
      ("daily" : String) ≠ "monthly" ∧
      (⟨2023, 1, 1, 0⟩ : DT) ∈ tbGo ⟨2023, 1, 1, 0⟩ ⟨2023, 1, 1, 0⟩ 24 ∧
      "Dog" ∈ ["Cat", "Dog"]) ∧
    (∃ v, cell [(⟨2023, 1, 1, 0⟩, [("Cat", some 5), ("Dog", none)])]
        ⟨2023, 1, 1, 0⟩ (spaceToUnderscore "Dog") = some v ∧
      (¬ mentions [⟨200, "u", Body.items [⟨"2023010100", "Cat", 5⟩]⟩]
          ⟨2023, 1, 1, 0⟩ (spaceToUnderscore "Dog") → v = none)) :=
  ⟨⟨by decide, by decide, by decide, by decide⟩,
    (c4_preseeding_invariant ["Cat", "Dog"] [] ⟨2023, 1, 1, 0⟩ ⟨2023, 1, 1, 0⟩
        "daily" "daily" [⟨200, "u", Body.items [⟨"2023010100", "Cat", 5⟩]⟩]).1
      [(⟨2023, 1, 1, 0⟩, [("Cat", some 5), ("Dog", none)])]
      (by decide) (by decide) ⟨2023, 1, 1, 0⟩ (by decide) "Dog" (by decide)⟩

/-! ### Helper lemmas: single-day ranges and exact roll-up values -/

theorem tblGet_nil (d : DT) : tblGet [] d = none := rfl

theorem tblSet_nil (d : DT) (r : Row) : tblSet [] d r = [(d, r)] := rfl

theorem cell_single (d : DT) (r : Row) (a : String) :
    cell [(d, r)] d a = rowGet r a := by
  simp [cell, tblGet, List.find?_cons]

theorem setCell_single (d : DT) (r : Row) (a : String) (v : Int) :
    setCell [(d, r)] d a v = [(d, rowSet r a (some v))] := by
  simp [setCell, tblGet, List.find?_cons, tblSet]

theorem tbGo_self (d : DT) (inc : Nat) (hv : validDT d) (hinc : 0 < inc) :
    tbGo d d inc = [d] := by
  unfold tbGo
  have h1 : toAbs d + 1 - toAbs d = 1 := by omega
  rw [h1]
  obtain ⟨ha, hv2⟩ := toAbs_addHours d inc hv
  have h2 : dtLe (addHours d inc) d = false :=
    dtLe_eq_false_of_toAbs_lt hv2 hv (by omega)
  simp [tbLoop, dtLe_refl d, h2]

theorem preseed_single (d : DT) (subs : List String) :
    preseed [d] subs = [(d, preseedRow subs)] := rfl

theorem mergeItems_singleton (d : DT) (items : List Item)
    (hts : ∀ it ∈ items, parse_date it.timestamp = some d) :
    ∀ r0 t2, mergeItems [(d, r0)] items = Except.ok t2 →
      ∃ row2, t2 = [(d, row2)] ∧
        ((r0.map Prod.fst).Nodup → (row2.map Prod.fst).Nodup) := by
  induction items with
  | nil =>
    intro r0 t2 hok
    simp only [mergeItems, List.foldlM_nil] at hok
    cases hok
    exact ⟨r0, rfl, fun h => h⟩
  | cons it rest ih =>
    intro r0 t2 hok
    simp only [mergeItems, List.foldlM_cons] at hok
    rw [hts it (List.mem_cons_self it rest)] at hok
    simp only [pure_bind] at hok
    rw [setCell_single] at hok
    obtain ⟨row2, hrow2, hnd⟩ := ih (fun x hx => hts x (List.mem_cons_of_mem it hx))
      (rowSet r0 it.subject (some it.views)) t2 hok
    exact ⟨row2, hrow2,
      fun h => hnd (rowSet_nodup r0 it.subject (some it.views) h)⟩

theorem mergeFold_singleton (d : DT) (results : List (RawResult Body))
    (hts : ∀ r ∈ results, ∀ l, r.body = Body.items l →
      ∀ it ∈ l, parse_date it.timestamp = some d) :
    ∀ r0 flag out, results.foldlM mergeStep ([(d, r0)], flag) = Except.ok out →
      ∃ row2, out.1 = [(d, row2)] ∧
        ((r0.map Prod.fst).Nodup → (row2.map Prod.fst).Nodup) := by
  induction results with
  | nil =>
    intro r0 flag out hok
    simp only [List.foldlM_nil] at hok
    cases hok
    exact ⟨r0, rfl, fun h => h⟩
  | cons r rest ih =>
    intro r0 flag out hok
    rw [List.foldlM_cons] at hok
    cases hb : r.body with
    | bad => rw [mergeStep_bad _ r hb, exc_error_bind] at hok; cases hok
    | noItems =>
      rw [mergeStep_noItems _ r hb, exc_ok_bind] at hok
      exact ih (fun x hx => hts x (List.mem_cons_of_mem r hx)) r0 flag out hok
    | items l =>
      cases hmi : mergeItems [(d, r0)] l with
      | error e =>
        rw [mergeStep_items_err _ r l e hb hmi, exc_error_bind] at hok
        cases hok
      | ok t2 =>
        rw [mergeStep_items _ r l t2 hb hmi, exc_ok_bind] at hok
        obtain ⟨row1, hrow1, hnd1⟩ := mergeItems_singleton d l
          (hts r (List.mem_cons_self r rest) l hb) r0 t2 hmi
        subst hrow1
        obtain ⟨row2, hrow2, hnd2⟩ :=
          ih (fun x hx => hts x (List.mem_cons_of_mem r hx)) row1 true out hok
        exact ⟨row2, hrow2, fun h => hnd2 (hnd1 h)⟩

theorem rowFold_value (m : DT) (row : Row) :
    ∀ om om2, (row.map Prod.fst).Nodup →
      row.foldlM (fun acc q => rollupArticle m acc q.1 q.2) om = Except.ok om2 →
    ∀ a2, (cell om m a2 = some none ∨ cell om m a2 = none) →
      cell om2 m a2 = (match row.find? (fun q => q.1 = a2) with
        | some q => if pytruthy q.2 then some (some (q.2.getD 0)) else cell om m a2
        | none => cell om m a2) := by
  induction row with
  | nil =>
    intro om om2 _ hok a2 _
    simp only [List.foldlM_nil] at hok
    cases hok
    simp
  | cons q rest ih =>
    intro om om2 hnd hok a2 hab
    have hnds : q.1 :: rest.map Prod.fst = (q :: rest).map Prod.fst := by simp
    have hnd2 : (rest.map Prod.fst).Nodup :=
      (List.nodup_cons.mp (hnds ▸ hnd)).2
    have hqnin : q.1 ∉ rest.map Prod.fst :=
      (List.nodup_cons.mp (hnds ▸ hnd)).1
    rw [List.foldlM_cons] at hok
    cases hra : rollupArticle m om q.1 q.2 with
    | error e => rw [hra, exc_error_bind] at hok; cases hok
    | ok omq =>
      rw [hra, exc_ok_bind] at hok
      by_cases hqa : q.1 = a2
      · by_cases htr : pytruthy q.2 = true
        · rcases rollupArticle_ok_cases m om q.1 q.2 omq hra with ⟨hf, _⟩ |
            ⟨_, mrow, cur, hmr, hcur, homq⟩
          · rw [htr] at hf; cases hf
          · have hcellom : cell om m a2 = some cur := by
              rw [← hqa]
              simp [cell, hmr, hcur]
            have hcurn : cur = none := by
              rcases hab with h | h
              · rw [hcellom] at h; injection h
              · rw [hcellom] at h; cases h
            have homq_cell : cell omq m a2 = some (some (q.2.getD 0)) := by
              subst homq
              rw [← hqa]
              simp [cell, tblGet_tblSet_self, rowGet_rowSet_self, hcurn, pyOr0]
            obtain ⟨_, _, _, _, i5⟩ := rowFold_props rest m omq om2 hok
            have hvac : ∀ x ∈ rest, x.1 = a2 → pytruthy x.2 = false := by
              intro x hx hxa
              exact absurd (by rw [hqa]; rw [← hxa]; exact List.mem_map_of_mem Prod.fst hx)
                hqnin
            rw [i5 a2 hvac, homq_cell]
            simp only [List.find?_cons, decide_eq_true (hqa ▸ rfl : q.1 = a2)]
            rw [if_pos htr]
        · have htr2 : pytruthy q.2 = false := by
            cases h : pytruthy q.2 with
            | false => rfl
            | true => exact absurd h htr
          have homq : omq = om := by
            rcases rollupArticle_ok_cases m om q.1 q.2 omq hra with ⟨_, h⟩ |
              ⟨htt, _⟩
            · exact h
            · rw [htr2] at htt; cases htt
          rw [homq] at hok
          have hfr : rest.find? (fun x => x.1 = a2) = none := by
            rw [List.find?_eq_none]
            intro x hx
            simp only [decide_eq_true_eq]
            intro hxa
            exact hqnin (by rw [hqa, ← hxa]; exact List.mem_map_of_mem Prod.fst hx)
          have hthis := ih om om2 hnd2 hok a2 hab
          rw [hfr] at hthis
          rw [hthis]
          simp only [List.find?_cons, decide_eq_true (hqa ▸ rfl : q.1 = a2)]
          rw [if_neg (by rw [htr2]; exact Bool.false_ne_true)]
      · have hcellq : cell omq m a2 = cell om m a2 :=
          rollupArticle_cell_ne m om q.1 q.2 omq hra m a2 (Or.inr (Ne.symm hqa))
        have := ih omq om2 hnd2 hok a2 (by rw [hcellq]; exact hab)
        rw [this, hcellq]
        simp only [List.find?_cons, decide_eq_false hqa]

/-- C3 (amended): over a single-day range whose responses mention only
that day, the monthly table agrees with the daily table on every
requested article whenever the daily value is absent or non-zero, and a
daily value of exactly 0 collapses to absent in the monthly table
(`if views:` treats 0 like no data). -/
theorem c3_monthly_vs_daily_single_day (articles : List String) (d : DT)
    (results : List (RawResult Body)) (Td Tm : Table) (hv : validDT d)
    (hts : ∀ r ∈ results, ∀ l, r.body = Body.items l →
      ∀ it ∈ l, parse_date it.timestamp = some d)
    (hd : article_views_core articles d d "daily" results = Except.ok Td)
    (hm : article_views_core articles d d "monthly" results = Except.ok Tm) :
    ∀ a ∈ articles, ∃ v,
      cell Td d (spaceToUnderscore a) = some v ∧
      cell Tm (month_from_day d) (spaceToUnderscore a) =
        some (if pytruthy v then v else none) := by
  intro a ha
  obtain ⟨outd, hmrd, _, hcased⟩ :=
    article_views_core_ok_decomp articles d d "daily" results Td hd
  obtain ⟨outm, hmrm, _, hcasem⟩ :=
    article_views_core_ok_decomp articles d d "monthly" results Tm hm
  rcases hcased with ⟨_, rfl⟩ | ⟨hne, _⟩
  swap
  · exact absurd hne (by decide)
  rcases hcasem with ⟨hne, _⟩ | ⟨_, hroll⟩
  · exact absurd rfl hne
  have houts : outm = outd := by
    rw [hmrd] at hmrm
    injection hmrm with h
    exact h.symm
  subst houts
  have hrange : tbGo d d 24 = [d] := tbGo_self d 24 hv (by omega)
  rw [hrange, preseed_single] at hmrd
  obtain ⟨row2, hrow2, hnd⟩ :=
    mergeFold_singleton d results hts
      (preseedRow (articles.map spaceToUnderscore)) false outm hmrd
  have hndrow : (row2.map Prod.fst).Nodup :=
    hnd (preseedRow_nodup (articles.map spaceToUnderscore))
  have hpa : spaceToUnderscore a ∈ articles.map spaceToUnderscore :=
    List.mem_map_of_mem spaceToUnderscore ha
  have hpre0 : cell [(d, preseedRow (articles.map spaceToUnderscore))] d
      (spaceToUnderscore a) = some none := by
    rw [cell_single, rowGet_preseedRow]
    simp [hpa]
  have hsome : (cell outm.1 d (spaceToUnderscore a)).isSome := by
    refine mergeFold_cell_isSome results _ outm hmrd d (spaceToUnderscore a) ?_
    simp [hpre0]
  rw [hrow2] at hsome
  rw [cell_single] at hsome
  obtain ⟨v, hvv⟩ := Option.isSome_iff_exists.mp hsome
  refine ⟨v, by rw [hrow2, cell_single]; exact hvv, ?_⟩
  unfold monthlyRollup at hroll
  rw [hrow2] at hroll
  rw [List.foldlM_cons] at hroll
  cases hrs : rollStep (articles.map spaceToUnderscore) []
      (d, row2) with
  | error e => rw [hrs, exc_error_bind] at hroll; cases hroll
  | ok omB =>
    rw [hrs, exc_ok_bind] at hroll
    simp only [List.foldlM_nil] at hroll
    have hTm : Tm = omB := by
      have h2 : Except.ok omB = Except.ok Tm := hroll
      injection h2 with h3
      exact h3.symm
    subst hTm
    simp only [rollStep, tblGet_nil, Option.isSome_none, Bool.false_eq_true,
      if_false, tblSet_nil] at hrs
    have hinit : cell [(month_from_day d, preseedRow (articles.map spaceToUnderscore))]
        (month_from_day d) (spaceToUnderscore a) = some none := by
      rw [cell_single, rowGet_preseedRow]
      simp [hpa]
    have hval := rowFold_value (month_from_day d) row2 _ Tm hndrow hrs
      (spaceToUnderscore a) (Or.inl hinit)
    cases hf : row2.find? (fun q => q.1 = spaceToUnderscore a) with
    | none =>
      have : rowGet row2 (spaceToUnderscore a) = none := by
        unfold rowGet
        rw [hf]
      rw [this] at hvv
      cases hvv
    | some q =>
      have hq1 : q.1 = spaceToUnderscore a := by
        simpa using List.find?_some hf
      have hq2 : q.2 = v := by
        have : rowGet row2 (spaceToUnderscore a) = some q.2 := by
          unfold rowGet
          rw [hf]
        rw [this] at hvv
        injection hvv
      rw [hf] at hval
      have hval2 : cell Tm (month_from_day d) (spaceToUnderscore a) =
          if pytruthy q.2 then some (some (q.2.getD 0))
          else cell [(month_from_day d,
            preseedRow (articles.map spaceToUnderscore))]
            (month_from_day d) (spaceToUnderscore a) := hval
      by_cases htr : pytruthy q.2 = true
      · rw [hval2, if_pos htr]
        obtain ⟨n, hn, hn0⟩ : ∃ n, q.2 = some n ∧ n ≠ 0 := by
          cases hq : q.2 with
          | none => rw [hq] at htr; simp [pytruthy] at htr
          | some n =>
            rw [hq] at htr
            simp only [pytruthy, decide_eq_true_eq] at htr
            exact ⟨n, rfl, htr⟩
        rw [← hq2, hn]
        simp [pytruthy, hn0]
      · have htr2 : pytruthy q.2 = false := by
          cases h : pytruthy q.2 with
          | false => rfl
          | true => exact absurd h htr
        rw [hval2, if_neg htr, hinit, ← hq2, htr2]
        simp

/-- Closed witness for the amended C3: one day, one article, a response
reporting 5 views; the monthly and daily values agree. -/
theorem c3_monthly_vs_daily_single_day_witness :
    (validDT ⟨2023, 1, 1, 0⟩ ∧
      (∀ r ∈ [(⟨200, "u", Body.items [⟨"2023010100", "Cat", 5⟩]⟩ :
          RawResult Body)], ∀ l, r.body = Body.items l →
        ∀ it ∈ l, parse_date it.timestamp = some ⟨2023, 1, 1, 0⟩) ∧
      article_views_core ["Cat"] ⟨2023, 1, 1, 0⟩ ⟨2023, 1, 1, 0⟩ "daily"
        [⟨200, "u", Body.items [⟨"2023010100", "Cat", 5⟩]⟩] =
        Except.ok [(⟨2023, 1, 1, 0⟩, [("Cat", some 5)])] ∧
      article_views_core ["Cat"] ⟨2023, 1, 1, 0⟩ ⟨2023, 1, 1, 0⟩ "monthly"
        [⟨200, "u", Body.items [⟨"2023010100", "Cat", 5⟩]⟩] =
        Except.ok [(⟨2023, 1, 1, 0⟩, [("Cat", some 5)])]) ∧
    (∀ a ∈ ["Cat"], ∃ v,
      cell [(⟨2023, 1, 1, 0⟩, [("Cat", some 5)])] ⟨2023, 1, 1, 0⟩
        (spaceToUnderscore a) = some v ∧
      cell [(⟨2023, 1, 1, 0⟩, [("Cat", some 5)])]
        (month_from_day ⟨2023, 1, 1, 0⟩) (spaceToUnderscore a) =
        some (if pytruthy v then v else none)) := by
  have hts : ∀ r ∈ [(⟨200, "u", Body.items [⟨"2023010100", "Cat", 5⟩]⟩ :
      RawResult Body)], ∀ l, r.body = Body.items l →
      ∀ it ∈ l, parse_date it.timestamp = some ⟨2023, 1, 1, 0⟩ := by
    intro r hr l hl it hit
    simp only [List.mem_singleton] at hr
    subst hr
    cases hl
    simp only [List.mem_singleton] at hit
    subst hit
    decide
  exact ⟨⟨by decide, hts, by decide, by decide⟩,
    c3_monthly_vs_daily_single_day ["Cat"] ⟨2023, 1, 1, 0⟩
      [⟨200, "u", Body.items [⟨"2023010100", "Cat", 5⟩]⟩]
      [(⟨2023, 1, 1, 0⟩, [("Cat", some 5)])]
      [(⟨2023, 1, 1, 0⟩, [("Cat", some 5)])]
      (by decide) hts (by decide) (by decide)⟩

/-! ### C10: underscored subject keys -/

theorem spaceToUnderscore_no_space (s : String) :
    ' ' ∉ (spaceToUnderscore s).data := by
  intro hmem
  have h2 : ' ' ∈ s.data.map (fun c => if c = ' ' then '_' else c) := hmem
  obtain ⟨c, _, hc⟩ := List.mem_map.mp h2
  by_cases h : c = ' ' <;> simp [h] at hc

theorem spaced_not_underscored (articles : List String) (a : String)
    (hsp : ' ' ∈ a.data) : a ∉ articles.map spaceToUnderscore := by
  intro hmem
  obtain ⟨y, _, rfl⟩ := List.mem_map.mp hmem
  exact spaceToUnderscore_no_space y hsp

/-- C10: the pre-seeded rows of `article_views` are keyed by the
caller-supplied titles with spaces replaced by underscores — every
underscored title maps to `None`, nothing else is a key, and a title
containing a space is never a key.  In the returned table of a
successful call, a spaced title is a key only if a response item itself
carries it as a subject. -/
theorem c10_preseeded_keys_are_underscored (articles : List String)
    (startDate endDate : DT) (g : String) (results : List (RawResult Body)) :
    (∀ d row, tblGet (preseed (tbGo startDate endDate 24)
        (articles.map spaceToUnderscore)) d = some row →
      (∀ a ∈ articles, rowGet row (spaceToUnderscore a) = some none) ∧
      (∀ x, (rowGet row x).isSome → x ∈ articles.map spaceToUnderscore) ∧
      (∀ a, ' ' ∈ a.data → rowGet row a = none)) ∧
    (∀ tbl, article_views_core articles startDate endDate g results =
        Except.ok tbl →
      ∀ d row, tblGet tbl d = some row → ∀ a, ' ' ∈ a.data →
        (∀ r ∈ results, ∀ l, r.body = Body.items l →
          ∀ it ∈ l, it.subject ≠ a) →
        rowGet row a = none) := by
  constructor
  · intro d row hrow
    rw [tblGet_preseed] at hrow
    by_cases hd : d ∈ tbGo startDate endDate 24
    · rw [if_pos hd] at hrow
      injection hrow with hrow
      subst hrow
      refine ⟨?_, ?_, ?_⟩
      · intro a ha
        rw [rowGet_preseedRow]
        simp [List.mem_map_of_mem spaceToUnderscore ha]
      · intro x hx
        rw [rowGet_preseedRow] at hx
        by_cases hmem : x ∈ articles.map spaceToUnderscore
        · exact hmem
        · rw [if_neg hmem] at hx; cases hx
      · intro a hsp
        rw [rowGet_preseedRow]
        rw [if_neg (spaced_not_underscored articles a hsp)]
    · rw [if_neg hd] at hrow
      cases hrow
  · intro tbl hok d row hrow a hsp hnosub
    obtain ⟨out, hmr, hge, hcase⟩ :=
      article_views_core_ok_decomp articles startDate endDate g results tbl hok
    by_cases hnone : rowGet row a = none
    · exact hnone
    · exfalso
      have hsome : (rowGet row a).isSome := by
        cases h : rowGet row a with
        | none => exact absurd h hnone
        | some v => rfl
      have hcellsome : (cell tbl d a).isSome := by
        rw [cell, hrow]
        exact hsome
      rcases hcase with ⟨_, rfl⟩ | ⟨_, hroll⟩
      · rcases mergeFold_cell_isSome_inv results _ out hmr d a hcellsome with
          hP | ⟨r, hr, l, hl, it, hit, hits⟩
        · rw [cell_preseed] at hP
          by_cases hc : d ∈ tbGo startDate endDate 24 ∧
              a ∈ articles.map spaceToUnderscore
          · exact spaced_not_underscored articles a hsp hc.2
          · rw [if_neg hc] at hP; cases hP
        · exact hnosub r hr l hl it hit hits
      · unfold monthlyRollup at hroll
        obtain ⟨_, _, _, _, c5, _⟩ := rollFold_spec
          (articles.map spaceToUnderscore) out.1 [] tbl hroll
          (fun _ _ _ => Or.inl rfl)
        rcases c5 d a hcellsome with hcnil | hpre
        · rw [show cell [] d a = none from rfl] at hcnil
          cases hcnil
        · rw [rowGet_preseedRow] at hpre
          by_cases hmem : a ∈ articles.map spaceToUnderscore
          · exact spaced_not_underscored articles a hsp hmem
          · rw [if_neg hmem] at hpre; cases hpre

/-- Closed witness for C10: a title with a space is keyed as its
underscored form and the spaced original is absent. -/
theorem c10_preseeded_keys_are_underscored_witness :
    ((tblGet (preseed (tbGo ⟨2023, 1, 1, 0⟩ ⟨2023, 1, 1, 0⟩ 24)
        (["New York"].map spaceToUnderscore)) ⟨2023, 1, 1, 0⟩ =
      some [("New_York", none)]) ∧
      article_views_core ["New York"] ⟨2023, 1, 1, 0⟩ ⟨2023, 1, 1, 0⟩ "daily"
        [⟨200, "u", Body.noItems⟩, ⟨200, "u2",
          Body.items [⟨"2023010100", "New_York", 2⟩]⟩] =
        Except.ok [(⟨2023, 1, 1, 0⟩, [("New_York", some 2)])] ∧
      ' ' ∈ "New York".data) ∧
    ((∀ a ∈ ["New York"], rowGet [("New_York", (none : Option Int))]
        (spaceToUnderscore a) = some none) ∧
      (∀ x, (rowGet [("New_York", (none : Option Int))] x).isSome →
        x ∈ ["New York"].map spaceToUnderscore) ∧
      (∀ a, ' ' ∈ a.data →
        rowGet [("New_York", (none : Option Int))] a = none)) ∧
    rowGet [("New_York", (some 2 : Option Int))] "New York" = none := by
  have hc10 := c10_preseeded_keys_are_underscored ["New York"] ⟨2023, 1, 1, 0⟩
    ⟨2023, 1, 1, 0⟩ "daily"
    [⟨200, "u", Body.noItems⟩,
      ⟨200, "u2", Body.items [⟨"2023010100", "New_York", 2⟩]⟩]
  refine ⟨⟨by decide, by decide, by decide⟩,
    hc10.1 ⟨2023, 1, 1, 0⟩ [("New_York", none)] (by decide), ?_⟩
  refine hc10.2 [(⟨2023, 1, 1, 0⟩, [("New_York", some 2)])] (by decide)
    ⟨2023, 1, 1, 0⟩ [("New_York", some 2)] (by decide) "New York" (by decide) ?_
  intro r hr l hl it hit
  simp only [List.mem_cons, List.not_mem_nil, or_false] at hr
  rcases hr with rfl | rfl
  · cases hl
  · cases hl
    simp only [List.mem_singleton] at hit
    subst hit
    decide

end Mwviews
